import Mathlib

/-!
Verification development for the layered trie-node snapshot store
(`trie` package: `nodeset.go`, `snap_disklayer.go`, the diff-layer file,
the layer-tree file and the state-history files).

Conventions of the shallow embedding:
* `Hash` (go `common.Hash`) is a natural number; the zero hash is `0`.
* `PathB` (a go `string` / `[]byte` path key) is a list of naturals.
* Node blobs are represented through `TNode`: an already-structured trie
  node.  The blob codec is out of scope of the source (an opaque codec is
  assumed), so "decoding" a blob is the identity and a raw byte blob is
  `TNode.raw`.
* Go maps are association lists (`alistGet` / `alistSet` mirror map read
  and write; iteration order is the list order).
* The pointer heap of layers is explicit: layers live at addresses
  (`Addr := Nat`) in a heap, and a diff layer stores its parent's address,
  mirroring go's shared mutable pointers.
* Machine integers that the claims depend on are naturals; `uint16`/`uint32`
  truncation is written `% 2^16` / `% 2^32` where the source casts.
* Errors are the `Err` inductive; go's `(value, error)` returns become
  `Except Err`.  Functions that mutate shared state before a possible
  error return the state in a product, so partially-applied mutations
  remain visible: `St × Except Err α`.
-/

/-- Heap address of a layer object (a go pointer). -/
abbrev Addr := Nat

/-- A state root or node hash (`common.Hash`); `0` is the zero hash. -/
abbrev Hash := Nat

/-- A node path key (go `string` of path bytes / nibbles). -/
abbrev PathB := List Nat

/-- Association-list read, mirroring a go map read (`m[k]`). -/
def alistGet {κ α : Type} [DecidableEq κ] : List (κ × α) → κ → Option α
  | [], _ => none
  | (k, v) :: rest, key => if k = key then some v else alistGet rest key

/-- Association-list write, mirroring a go map write (`m[k] = v`):
replaces in place when the key is present, otherwise appends. -/
def alistSet {κ α : Type} [DecidableEq κ] : List (κ × α) → κ → α → List (κ × α)
  | [], key, v => [(key, v)]
  | (k, w) :: rest, key, v =>
    if k = key then (k, v) :: rest else (k, w) :: alistSet rest key v

/-- Association-list delete, mirroring go `delete(m, k)`. -/
def alistDel {κ α : Type} [DecidableEq κ] : List (κ × α) → κ → List (κ × α)
  | [], _ => []
  | (k, w) :: rest, key =>
    if k = key then rest else (k, w) :: alistDel rest key

@[simp] theorem alistGet_nil {κ α : Type} [DecidableEq κ] (k : κ) :
    alistGet ([] : List (κ × α)) k = none := rfl

@[simp] theorem alistGet_cons {κ α : Type} [DecidableEq κ] (k key : κ) (v : α) (rest) :
    alistGet ((k, v) :: rest) key = if k = key then some v else alistGet rest key := rfl

theorem alistGet_set_self {κ α : Type} [DecidableEq κ] (m : List (κ × α)) (k : κ) (v : α) :
    alistGet (alistSet m k v) k = some v := by
  induction m with
  | nil => simp [alistSet]
  | cons hd tl ih =>
    obtain ⟨k', v'⟩ := hd
    by_cases h : k' = k <;> simp [alistSet, h, ih]

theorem alistGet_set_ne {κ α : Type} [DecidableEq κ] (m : List (κ × α)) (k key : κ) (v : α)
    (h : k ≠ key) : alistGet (alistSet m k v) key = alistGet m key := by
  induction m with
  | nil => simp [alistSet, h]
  | cons hd tl ih =>
    obtain ⟨k', v'⟩ := hd
    by_cases h' : k' = k
    · subst h'; simp [alistSet, h]
    · simp [alistSet, h', ih]

/-- A structured trie node.  The source's `node` interface: short nodes,
full nodes (17 children, the 17th being the value slot), value nodes,
hash nodes and raw (still-encoded) nodes. -/
inductive TNode : Type
  | short (key : PathB) (val : TNode)
  | full (children : List (Option TNode))
  | value (blob : List Nat)
  | hashn (h : Hash)
  | raw (blob : List Nat)

/-- `memoryNode` (nodeset.go): hash, accounted size and cached node; a zero
hash marks a deletion tombstone. -/
structure MemoryNode where
  hash : Hash
  size : Nat
  node : Option TNode

/-- `memoryNode.isDeleted`. -/
def MemoryNode.isDeleted (n : MemoryNode) : Bool := n.hash = 0

/-- `nodeWithPrev` (nodeset.go): a `memoryNode` plus the previous value
(`nil` means previously non-existent).  Blobs are carried decoded. -/
structure NodeWithPrev where
  mnode : MemoryNode
  prev : Option TNode

/-- `nodeWithPrev.unwrap`. -/
def NodeWithPrev.unwrap (n : NodeWithPrev) : MemoryNode := n.mnode

/-- The two-level dirty-node map `map[common.Hash]map[string]*nodeWithPrev`
indexed by owner and path. -/
abbrev NodeMap := List (Hash × List (PathB × NodeWithPrev))

/-- The slimmed map `map[common.Hash]map[string]*memoryNode` built by
`diskLayer.commit` after dropping previous values. -/
abbrev SlimMap := List (Hash × List (PathB × MemoryNode))

/-- Error kinds surfaced by the store (errors.go plus the `fmt.Errorf`
errors of the layer tree).  `internal` marks go panics and model-artifact
branches (dangling pointer / exhausted fuel) that are unreachable from
well-formed states. -/
inductive Err : Type
  | snapshotStale
  | unexpectedNode
  | unmatchedReverseDiff
  | stateUnrecoverable
  | snapshotCycle
  | parentMissing
  | snapshotMissing
  | isDiskLayer
  | freezerFailed
  | internal
  deriving DecidableEq, Repr

/-! ### NodeSet: tip-node iteration (nodeset.go) -/

/-- Go string comparison on path keys: bytewise lexicographic, a proper
initial segment compares smaller. -/
def lexLe : PathB → PathB → Bool
  | [], _ => true
  | _ :: _, [] => false
  | a :: as, b :: bs =>
    if a < b then true
    else if b < a then false
    else lexLe as bs

/-- Strict version of `lexLe`. -/
def lexLt (a b : PathB) : Bool := lexLe a b && !(lexLe b a)

/-- Ordered insertion used to model `sort.StringSlice.Sort` (any sorted
permutation of a list of distinct keys is the same list). -/
def insertSorted (x : PathB) : List PathB → List PathB
  | [] => [x]
  | y :: ys => if lexLe x y then x :: y :: ys else y :: insertSorted x ys

/-- Sorting of the path keys of a node map (`paths.Sort()`). -/
def sortPaths (l : List PathB) : List PathB := l.foldr insertSorted []

/-- The body of `forEachTipNode`'s scan: the go loop keeps a sliding
window `stack` of at most two sorted paths and emits `prev` whenever the
next path does not extend it; translated with the stack explicit. -/
def tipsLoopGo : List PathB → List PathB → List PathB → List PathB × List PathB
  | stack, tips, [] => (stack, tips)
  | stack, tips, p :: rest =>
    match stack with
    | [] => tipsLoopGo [p] tips rest
    | prev :: _ =>
      tipsLoopGo [p] (if prev.isPrefixOf p then tips else tips ++ [prev]) rest

/-- The tip paths computed by `forEachTipNode` from the sorted path list:
the scan loop followed by flushing the final one-element stack. -/
def computeTips (paths : List PathB) : List PathB :=
  let r := tipsLoopGo [] [] paths
  if r.1.length = 1 then r.2 ++ r.1 else r.2

/-- `forEachTipNode` (nodeset.go): sorts the keys of the dirty-node map,
finds the tip paths and visits them left to right.  The visit sequence of
a non-failing callback is returned as the list of `(path, node)` pairs. -/
def forEachTipNode (nodes : List (PathB × NodeWithPrev)) : List (PathB × NodeWithPrev) :=
  (computeTips (sortPaths (nodes.map Prod.fst))).filterMap
    (fun p => (alistGet nodes p).map (fun n => (p, n)))

/-- A tip path of a path set: not a strict prefix of any other path in the
set (spec §4.2; with distinct keys, "strict" is `q ≠ p`). -/
def isTipB (paths : List PathB) (p : PathB) : Bool :=
  paths.all (fun q => q = p || !(p.isPrefixOf q))

theorem lexLe_refl (a : PathB) : lexLe a a = true := by
  induction a with
  | nil => rfl
  | cons x xs ih => simp [lexLe, ih]

theorem lexLe_total (a b : PathB) : lexLe a b = true ∨ lexLe b a = true := by
  induction a generalizing b with
  | nil => left; rfl
  | cons x xs ih =>
    cases b with
    | nil => right; rfl
    | cons y ys =>
      rcases Nat.lt_trichotomy x y with h | h | h
      · left; simp [lexLe, h]
      · subst h
        rcases ih ys with h' | h'
        · left; simp [lexLe, h']
        · right; simp [lexLe, h']
      · right; simp [lexLe, h]

theorem lexLe_antisymm {a b : PathB} (h1 : lexLe a b = true) (h2 : lexLe b a = true) :
    a = b := by
  induction a generalizing b with
  | nil => cases b with
    | nil => rfl
    | cons y ys => simp [lexLe] at h2
  | cons x xs ih =>
    cases b with
    | nil => simp [lexLe] at h1
    | cons y ys =>
      rcases Nat.lt_trichotomy x y with h | h | h
      · simp [lexLe, h, Nat.not_lt.mpr (Nat.le_of_lt h), Nat.ne_of_gt h] at h2
      · subst h
        simp only [lexLe, lt_irrefl, if_false] at h1 h2
        rw [ih h1 h2]
      · simp [lexLe, h, Nat.not_lt.mpr (Nat.le_of_lt h), Nat.ne_of_gt h] at h1

theorem lexLe_trans {a b c : PathB} (h1 : lexLe a b = true) (h2 : lexLe b c = true) :
    lexLe a c = true := by
  induction a generalizing b c with
  | nil => rfl
  | cons x xs ih =>
    cases b with
    | nil => simp [lexLe] at h1
    | cons y ys =>
      cases c with
      | nil => simp [lexLe] at h2
      | cons z zs =>
        rcases Nat.lt_trichotomy x y with hxy | hxy | hxy
        · rcases Nat.lt_trichotomy y z with hyz | hyz | hyz
          · simp [lexLe, Nat.lt_trans hxy hyz]
          · subst hyz; simp [lexLe, hxy]
          · simp [lexLe, hyz, Nat.not_lt.mpr (Nat.le_of_lt hyz), Nat.ne_of_gt hyz] at h2
        · subst hxy
          rcases Nat.lt_trichotomy x z with hyz | hyz | hyz
          · simp [lexLe, hyz]
          · subst hyz
            simp only [lexLe, lt_irrefl, if_false] at h1 h2 ⊢
            exact ih h1 h2
          · simp [lexLe, hyz, Nat.not_lt.mpr (Nat.le_of_lt hyz), Nat.ne_of_gt hyz] at h2
        · simp [lexLe, hxy, Nat.not_lt.mpr (Nat.le_of_lt hxy), Nat.ne_of_gt hxy] at h1

theorem lexLe_of_isPrefixOf {a b : PathB} (h : a.isPrefixOf b = true) :
    lexLe a b = true := by
  induction a generalizing b with
  | nil => rfl
  | cons x xs ih =>
    cases b with
    | nil => simp [List.isPrefixOf] at h
    | cons y ys =>
      simp only [List.isPrefixOf, Bool.and_eq_true, beq_iff_eq] at h
      obtain ⟨rfl, h2⟩ := h
      simp [lexLe, ih h2]

/-- If `x` is a prefix of `q` and `x ≤ y ≤ q` then `x` is a prefix of `y`:
a path sandwiched between a prefix and its extension also extends it. -/
theorem isPrefixOf_of_between {x y q : PathB} (hpre : x.isPrefixOf q = true)
    (h1 : lexLe x y = true) (h2 : lexLe y q = true) : x.isPrefixOf y = true := by
  induction x generalizing y q with
  | nil => simp [List.isPrefixOf]
  | cons a xs ih =>
    cases q with
    | nil => simp [List.isPrefixOf] at hpre
    | cons c qs =>
      simp only [List.isPrefixOf, Bool.and_eq_true, beq_iff_eq] at hpre
      obtain ⟨rfl, hpre⟩ := hpre
      cases y with
      | nil => simp [lexLe] at h1
      | cons b ys =>
        rcases Nat.lt_trichotomy a b with hab | hab | hab
        · simp only [lexLe] at h2
          rw [if_neg (by omega), if_pos (by omega)] at h2
          exact absurd h2 (by simp)
        · subst hab
          simp only [lexLe, lt_irrefl, if_false] at h1 h2
          simp [List.isPrefixOf, ih hpre h1 h2]
        · simp only [lexLe] at h1
          rw [if_neg (by omega), if_pos (by omega)] at h1
          exact absurd h1 (by simp)

theorem insertSorted_perm (x : PathB) (l : List PathB) :
    (insertSorted x l).Perm (x :: l) := by
  induction l with
  | nil => exact List.Perm.refl _
  | cons y ys ih =>
    by_cases h : lexLe x y = true
    · simp [insertSorted, h]
    · simp only [insertSorted, h, if_false]
      exact (ih.cons y).trans (List.Perm.swap x y ys)

theorem sortPaths_perm (l : List PathB) : (sortPaths l).Perm l := by
  induction l with
  | nil => exact List.Perm.refl _
  | cons x xs ih =>
    simp only [sortPaths, List.foldr_cons]
    exact (insertSorted_perm x _).trans (ih.cons x)

theorem insertSorted_sorted (x : PathB) (l : List PathB)
    (h : l.Pairwise (fun a b => lexLe a b = true)) :
    (insertSorted x l).Pairwise (fun a b => lexLe a b = true) := by
  induction l with
  | nil => simp [insertSorted]
  | cons y ys ih =>
    rcases List.pairwise_cons.mp h with ⟨hy, hys⟩
    by_cases hxy : lexLe x y = true
    · simp only [insertSorted, hxy, if_true]
      refine List.pairwise_cons.mpr ⟨?_, h⟩
      intro b hb
      rw [List.mem_cons] at hb
      rcases hb with rfl | hb
      · exact hxy
      · exact lexLe_trans hxy (hy _ hb)
    · simp only [insertSorted, hxy, if_false]
      refine List.pairwise_cons.mpr ⟨?_, ih hys⟩
      intro b hb
      have hmem := (insertSorted_perm x ys).mem_iff.mp hb
      rw [List.mem_cons] at hmem
      rcases hmem with rfl | hmem
      · rcases lexLe_total b y with h' | h'
        · exact absurd h' hxy
        · exact h'
      · exact hy _ hmem

theorem sortPaths_sorted (l : List PathB) :
    (sortPaths l).Pairwise (fun a b => lexLe a b = true) := by
  induction l with
  | nil => simp [sortPaths]
  | cons x xs ih =>
    simp only [sortPaths, List.foldr_cons]
    exact insertSorted_sorted x _ ih

/-- Recursive characterization of the sliding-window scan: compare each
sorted path with its successor, keep it when the successor does not
extend it, and always keep the last one. -/
def tipsRec (x : PathB) : List PathB → List PathB
  | [] => [x]
  | y :: ys => if x.isPrefixOf y then tipsRec y ys else x :: tipsRec y ys

theorem tipsLoopGo_bridge (l : List PathB) : ∀ (x : PathB) (t : List PathB),
    (tipsLoopGo [x] t l).2 ++ (tipsLoopGo [x] t l).1 = t ++ tipsRec x l ∧
    (tipsLoopGo [x] t l).1.length = 1 := by
  induction l with
  | nil => intro x t; simp [tipsLoopGo, tipsRec]
  | cons y ys ih =>
    intro x t
    by_cases h : x.isPrefixOf y = true
    · simpa [tipsLoopGo, tipsRec, h] using ih y t
    · have := ih y (t ++ [x])
      simpa [tipsLoopGo, tipsRec, h] using this

theorem computeTips_cons (p : PathB) (rest : List PathB) :
    computeTips (p :: rest) = tipsRec p rest := by
  obtain ⟨h1, h2⟩ := tipsLoopGo_bridge rest p []
  simp only [computeTips, tipsLoopGo]
  rw [h2, if_pos rfl]
  simpa using h1

theorem computeTips_nil : computeTips [] = [] := rfl

theorem lexLt_of_le_of_ne {a b : PathB} (h : lexLe a b = true) (hne : a ≠ b) :
    lexLt a b = true := by
  have : lexLe b a = false := by
    by_contra h'
    exact hne (lexLe_antisymm h (Bool.not_eq_false _ ▸ h'))
  simp [lexLt, h, this]

theorem isTipB_iff {l : List PathB} {p : PathB} :
    isTipB l p = true ↔ ∀ q ∈ l, q = p ∨ p.isPrefixOf q = false := by
  simp only [isTipB, List.all_eq_true, Bool.or_eq_true, decide_eq_true_eq,
    Bool.not_eq_true']

theorem isPrefixOf_self (a : PathB) : a.isPrefixOf a = true := by
  induction a with
  | nil => simp [List.isPrefixOf]
  | cons x xs ih => simp [List.isPrefixOf, ih]

/-- On a tail element of a sorted duplicate-free list, dropping the head
does not change tip-ness. -/
theorem isTipB_cons_tail {x p : PathB} {rest : List PathB}
    (hle : ∀ q ∈ rest, lexLe x q = true) (hnm : x ∉ rest) (hp : p ∈ rest) :
    isTipB (x :: rest) p = isTipB rest p := by
  simp only [isTipB, List.all_cons]
  have h1 : (decide (x = p) || !p.isPrefixOf x) = true := by
    have hxp : x ≠ p := fun h => hnm (h ▸ hp)
    have : p.isPrefixOf x = false := by
      by_contra h'
      have hpx := lexLe_of_isPrefixOf (Bool.not_eq_false _ ▸ h')
      exact hxp (lexLe_antisymm (hle p hp) hpx)
    simp [this]
  rw [h1, Bool.true_and]


theorem tipsRec_eq_filter : ∀ (l : List PathB) (x : PathB),
    (x :: l).Pairwise (fun a b => lexLe a b = true) → (x :: l).Nodup →
    tipsRec x l = (x :: l).filter (fun p => isTipB (x :: l) p) := by
  intro l
  induction l with
  | nil =>
    intro x _ _
    simp [tipsRec, List.filter, isTipB, isPrefixOf_self]
  | cons y ys ih =>
    intro x h hnd
    rcases List.pairwise_cons.mp h with ⟨hxq, htail⟩
    rcases List.nodup_cons.mp hnd with ⟨hxnm, hndtail⟩
    have hyq : ∀ q ∈ ys, lexLe y q = true := (List.pairwise_cons.mp htail).1
    have hcongr : (y :: ys).filter (fun p => isTipB (x :: y :: ys) p) =
        (y :: ys).filter (fun p => isTipB (y :: ys) p) :=
      List.filter_congr (fun p hp => isTipB_cons_tail hxq hxnm hp)
    have hxny : x ≠ y := fun hxy => hxnm (by simp [hxy])
    by_cases hp : x.isPrefixOf y = true
    · have hxfalse : isTipB (x :: y :: ys) x = false := by
        rw [← Bool.not_eq_true]
        intro habs
        rcases isTipB_iff.mp habs y (by simp) with h' | h'
        · exact hxny h'.symm
        · rw [hp] at h'; cases h'
      calc tipsRec x (y :: ys) = tipsRec y ys := by simp [tipsRec, hp]
        _ = (y :: ys).filter (fun p => isTipB (y :: ys) p) := ih y htail hndtail
        _ = (y :: ys).filter (fun p => isTipB (x :: y :: ys) p) := hcongr.symm
        _ = (x :: y :: ys).filter (fun p => isTipB (x :: y :: ys) p) := by
              have hxstep : (x :: y :: ys).filter (fun p => isTipB (x :: y :: ys) p) =
                  (y :: ys).filter (fun p => isTipB (x :: y :: ys) p) := by
                rw [List.filter_cons, hxfalse]; simp
              exact hxstep.symm
    · have hxtrue : isTipB (x :: y :: ys) x = true := by
        rw [isTipB_iff]
        intro q hq
        rw [List.mem_cons] at hq
        rcases hq with rfl | hq
        · exact Or.inl rfl
        · right
          rw [← Bool.not_eq_true]
          intro habs
          have hyqle : lexLe y q = true := by
            rw [List.mem_cons] at hq
            rcases hq with rfl | hq
            · exact lexLe_refl q
            · exact hyq q hq
          exact hp (isPrefixOf_of_between habs (hxq y (by simp)) hyqle)
      calc tipsRec x (y :: ys) = x :: tipsRec y ys := by simp [tipsRec, hp]
        _ = x :: (y :: ys).filter (fun p => isTipB (y :: ys) p) := by
              rw [ih y htail hndtail]
        _ = x :: (y :: ys).filter (fun p => isTipB (x :: y :: ys) p) := by
              rw [hcongr]
        _ = (x :: y :: ys).filter (fun p => isTipB (x :: y :: ys) p) := by
              have hxstep : (x :: y :: ys).filter (fun p => isTipB (x :: y :: ys) p) =
                  x :: (y :: ys).filter (fun p => isTipB (x :: y :: ys) p) := by
                rw [List.filter_cons, hxtrue]; simp
              exact hxstep.symm

theorem isTipB_mem_congr {l l' : List PathB} (h : ∀ q, q ∈ l ↔ q ∈ l') (p : PathB) :
    isTipB l p = isTipB l' p := by
  rw [Bool.eq_iff_iff, isTipB_iff, isTipB_iff]
  constructor
  · intro hh q hq; exact hh q ((h q).mpr hq)
  · intro hh q hq; exact hh q ((h q).mp hq)

theorem computeTips_eq_filter {l : List PathB}
    (hsorted : l.Pairwise (fun a b => lexLe a b = true)) (hnd : l.Nodup) :
    computeTips l = l.filter (fun p => isTipB l p) := by
  cases l with
  | nil => rfl
  | cons a rest => exact (computeTips_cons a rest).trans (tipsRec_eq_filter rest a hsorted hnd)

theorem alistGet_isSome_of_mem {β : Type} {nodes : List (PathB × β)} {p : PathB}
    (h : p ∈ nodes.map Prod.fst) : ∃ v, alistGet nodes p = some v := by
  induction nodes with
  | nil => simp at h
  | cons hd tl ih =>
    obtain ⟨k, v⟩ := hd
    rw [List.map_cons, List.mem_cons] at h
    rcases h with rfl | h
    · exact ⟨v, by simp [alistGet]⟩
    · by_cases hk : k = p
      · exact ⟨v, by simp [alistGet, hk]⟩
      · obtain ⟨w, hw⟩ := ih h
        exact ⟨w, by simp [alistGet, hk, hw]⟩

theorem filterMap_lookup_spec {β : Type} (nodes : List (PathB × β)) :
    ∀ (l : List PathB), (∀ p ∈ l, ∃ v, alistGet nodes p = some v) →
    (l.filterMap (fun p => (alistGet nodes p).map (fun n => (p, n)))).map Prod.fst = l ∧
    ∀ pr ∈ l.filterMap (fun p => (alistGet nodes p).map (fun n => (p, n))),
      alistGet nodes pr.1 = some pr.2 := by
  intro l
  induction l with
  | nil => intro _; exact ⟨rfl, by intro pr hpr; cases hpr⟩
  | cons p rest ih =>
    intro h
    obtain ⟨v, hv⟩ := h p (by simp)
    obtain ⟨ih1, ih2⟩ := ih (fun q hq => h q (by simp [hq]))
    constructor
    · simp [List.filterMap_cons, hv, ih1]
    · intro pr hpr
      rw [List.filterMap_cons, hv] at hpr
      simp only [Option.map_some'] at hpr
      rcases List.mem_cons.mp hpr with rfl | hpr
      · exact hv
      · exact ih2 pr hpr

/-- C9: for every finite map of dirty nodes with distinct paths,
`forEachTipNode` invokes the callback exactly on the tip nodes — those
whose path is not a strict prefix of any other path in the set — each
exactly once, in ascending lexicographic order of path bytes, passing
each tip its node. -/
theorem c9_forEachTipNode_tips (nodes : List (PathB × NodeWithPrev))
    (hnd : (nodes.map Prod.fst).Nodup) :
    (∀ p : PathB, p ∈ (forEachTipNode nodes).map Prod.fst ↔
      (p ∈ nodes.map Prod.fst ∧ isTipB (nodes.map Prod.fst) p = true)) ∧
    ((forEachTipNode nodes).map Prod.fst).Nodup ∧
    ((forEachTipNode nodes).map Prod.fst).Pairwise (fun a b => lexLt a b = true) ∧
    (∀ pr ∈ forEachTipNode nodes, alistGet nodes pr.1 = some pr.2) := by
  have hperm := sortPaths_perm (nodes.map Prod.fst)
  have hsnd : (sortPaths (nodes.map Prod.fst)).Nodup := hperm.nodup_iff.mpr hnd
  have hsorted := sortPaths_sorted (nodes.map Prod.fst)
  have htips := computeTips_eq_filter hsorted hsnd
  have hmem : ∀ q, q ∈ sortPaths (nodes.map Prod.fst) ↔ q ∈ nodes.map Prod.fst :=
    fun q => hperm.mem_iff
  have hsub : ∀ p ∈ computeTips (sortPaths (nodes.map Prod.fst)),
      ∃ v, alistGet nodes p = some v := by
    intro p hp
    rw [htips] at hp
    exact alistGet_isSome_of_mem ((hmem p).mp (List.mem_filter.mp hp).1)
  obtain ⟨hkeys, hval⟩ := filterMap_lookup_spec nodes _ hsub
  have hkeys' : (forEachTipNode nodes).map Prod.fst =
      (sortPaths (nodes.map Prod.fst)).filter
        (fun p => isTipB (sortPaths (nodes.map Prod.fst)) p) := by
    rw [forEachTipNode, hkeys, htips]
  refine ⟨?_, ?_, ?_, ?_⟩
  · intro p
    rw [hkeys', List.mem_filter, hmem p, isTipB_mem_congr hmem p]
  · rw [hkeys']
    exact hsnd.filter _
  · rw [hkeys']
    have hle := hsorted.filter (fun p => isTipB (sortPaths (nodes.map Prod.fst)) p)
    have hne : ((sortPaths (nodes.map Prod.fst)).filter
        (fun p => isTipB (sortPaths (nodes.map Prod.fst)) p)).Pairwise (· ≠ ·) :=
      hsnd.filter _
    exact (hle.and hne).imp (fun hab => lexLt_of_le_of_ne hab.1 hab.2)
  · exact hval

/-- Concrete dirty-node map exercising `forEachTipNode`: paths `[1]`,
`[1,2]`, `[0]` — tips are `[0]` and `[1,2]`. -/
def c9nodes : List (PathB × NodeWithPrev) :=
  [([1], ⟨⟨5, 1, none⟩, none⟩), ([1, 2], ⟨⟨6, 1, none⟩, none⟩),
   ([0], ⟨⟨7, 1, none⟩, none⟩)]

/-- Witness for C9 at the concrete map `c9nodes`. -/
theorem c9_forEachTipNode_tips_witness :
    (∀ p : PathB, p ∈ (forEachTipNode c9nodes).map Prod.fst ↔
      (p ∈ c9nodes.map Prod.fst ∧ isTipB (c9nodes.map Prod.fst) p = true)) ∧
    ((forEachTipNode c9nodes).map Prod.fst).Nodup ∧
    ((forEachTipNode c9nodes).map Prod.fst).Pairwise (fun a b => lexLt a b = true) ∧
    (∀ pr ∈ forEachTipNode c9nodes, alistGet c9nodes pr.1 = some pr.2) :=
  c9_forEachTipNode_tips c9nodes (by decide)

/-! ### Previous-leaf resolution and the state-history builders -/

/-- `hasTerm`: a hex path carries the terminator nibble 16 at its end. -/
def hasTerm (p : PathB) : Bool := p.getLast? = some 16

/-- Nibble-pair packing of `hexToKeybytes` (two nibbles per key byte). -/
def packNibbles : List Nat → List Nat
  | a :: b :: rest => (a * 16 + b) :: packNibbles rest
  | _ => []

/-- Modelled from the spec: `hexToKeybytes` is an out-of-scope codec
helper converting a terminated hex-nibble path to key bytes (drop the
terminator, pack nibble pairs; an odd nibble count is a go panic and is
unreachable from terminated leaf keys). -/
def hexToKeybytes (p : PathB) : List Nat :=
  packNibbles (if hasTerm p then p.dropLast else p)

/-- `common.BytesToHash`, modelled as the base-256 value of the bytes;
the empty byte string is the zero hash. -/
def bytesToHash (b : List Nat) : Hash := b.foldl (fun a x => a * 256 + x) 0

mutual

/-- The `(leaf-key, leaf-value)` pairs emitted by `resolve` (nodeset.go):
a terminated short node emits its value; a full node recurses into its
first 16 children (errors of children are discarded by the source, so
emission is unaffected); other node kinds emit nothing. -/
def resolveEmits : PathB → TNode → List (List Nat × List Nat)
  | pre, .short key val =>
    if hasTerm key then
      match val with
      | .value b => [(hexToKeybytes (pre ++ key), b)]
      | _ => []
    else []
  | pre, .full cs => resolveEmitsChildren pre 0 cs
  | _, _ => []

/-- Children loop of `resolve` over `nn.Children[:16]`. -/
def resolveEmitsChildren : PathB → Nat → List (Option TNode) → List (List Nat × List Nat)
  | _, _, [] => []
  | pre, i, none :: rest => resolveEmitsChildren pre (i + 1) rest
  | pre, i, some cn :: rest =>
    if i < 16 then resolveEmits (pre ++ [i]) cn ++ resolveEmitsChildren pre (i + 1) rest
    else []

end

/-- Whether `resolve` itself reports an error: only an unterminated
short node at the top does (child errors are discarded inside the full
node loop; the `nn.Val.(valueNode)` assertion panic is not modelled as it
cannot occur for decoded leaf-carrying blobs). -/
def resolveErrB : TNode → Bool
  | .short key _ => !hasTerm key
  | _ => false

/-- `resolvePrevLeaves` (nodeset.go): walk the tip nodes in order, decode
each tip's previous blob (decoding is the identity in this embedding) and
collect the leaves it resolves to; a resolution error aborts remaining
tips. -/
def resolvePrevLeaves (subset : List (PathB × NodeWithPrev)) : List (List Nat × List Nat) :=
  go (forEachTipNode subset)
where
  /-- Tip visiting with error short-circuit. -/
  go : List (PathB × NodeWithPrev) → List (List Nat × List Nat)
  | [] => []
  | (p, tip) :: rest =>
    match tip.prev with
    | none => go rest
    | some n => if resolveErrB n then resolveEmits p n else resolveEmits p n ++ go rest

/-- `elementHistory` (first state-history file): an element key and its
previous value. -/
structure ElementHistory where
  Key : List Nat
  Prev : List Nat

/-- `accountIndex` of the first state-history implementation. -/
structure AccountIndex where
  Hash : Hash
  DataOffset : Nat
  DataLength : Nat
  SlotOffset : Nat
  SlotNumber : Nat
  deriving DecidableEq

/-- `slotIndex` of the first state-history implementation. -/
structure SlotIndex where
  Hash : Hash
  DataOffset : Nat
  DataLength : Nat
  deriving DecidableEq

/-- `newSlotIndex` (first implementation): index the slots of one account
at consecutive data offsets. -/
def newSlotIndex (offset : Nat) (slots : List ElementHistory) :
    List SlotIndex × List Nat × Nat :=
  slots.foldl
    (fun st slot =>
      (st.1 ++ [⟨bytesToHash slot.Key, st.2.2, slot.Prev.length % 2 ^ 32⟩],
        st.2.1 ++ slot.Prev, st.2.2 + slot.Prev.length))
    ([], [], offset)

/-- `newAccountIndex` (first implementation): build one account index and
advance the account data offset. -/
def newAccountIndex1 (element : ElementHistory) (accountOffset : Nat)
    (slotIdx : List SlotIndex) (slotOffset : Nat) : AccountIndex × Nat :=
  (⟨bytesToHash element.Key, accountOffset, element.Prev.length % 2 ^ 32,
      slotOffset, slotIdx.length % 2 ^ 32⟩,
    accountOffset + element.Prev.length)

/-- Account loop of the first `newStateHistory`: `leaves[account][i]` is a
go index expression; its out-of-range case is a panic, modelled as `none`. -/
def nsh1Loop (leaves : List (Hash × List ElementHistory)) :
    List Hash → Nat → Nat → Nat → List AccountIndex → List SlotIndex →
    List Nat → List Nat →
    Option (List AccountIndex × List SlotIndex × List Nat × List Nat)
  | [], _, _, _, aIdx, sIdx, aData, sData => some (aIdx, sIdx, aData, sData)
  | account :: rest, i, accountOffset, slotOffset, aIdx, sIdx, aData, sData =>
    let slots := (alistGet leaves account).getD []
    let r := newSlotIndex slotOffset slots
    match ((alistGet leaves account).getD []).get? i with
    | none => none
    | some element =>
      let ai := newAccountIndex1 element accountOffset r.1 (r.1.length % 2 ^ 32)
      nsh1Loop leaves rest (i + 1) ai.2 r.2.2 (aIdx ++ [ai.1]) (sIdx ++ r.1)
        (aData ++ element.Prev) (sData ++ r.2.1)

/-- The first `newStateHistory` implementation (the one building the
`accounts`/`accountBlob` lists and indexing `leaves[account][i]`).
`none` is the go panic of an out-of-range index. -/
def newStateHistory1 (nodes : NodeMap) :
    Option (List AccountIndex × List SlotIndex × List Nat × List Nat) :=
  let first := nodes.foldl
    (fun (st : List (Hash × List ElementHistory) × List Hash × List (List Nat)) ow =>
      let elements := (resolvePrevLeaves ow.2).map (fun pr => ElementHistory.mk pr.1 pr.2)
      let leaves := alistSet st.1 ow.1 elements
      if ow.1 = 0 then
        (leaves, st.2.1 ++ elements.map (fun e => bytesToHash e.Key),
          st.2.2 ++ elements.map (fun e => e.Prev))
      else (leaves, st.2.1, st.2.2))
    ([], [], [])
  nsh1Loop first.1 first.2.1 0 0 0 [] [] [] []

/-- Input with a single account-trie leaf: the previous blob of the root
path resolves to one leaf whose key hashes to owner `18`, and there is no
storage trie for owner `18`. -/
def c10nodes : NodeMap :=
  [(0, [([], ⟨⟨3, 1, none⟩, some (TNode.short [1, 2, 16] (TNode.value [9]))⟩)])]

/-- C10: the first `newStateHistory` implementation is not total — on
`c10nodes` the expression `leaves[account][i]` is evaluated with `i = 0`
at the empty slot list of owner `18`, reaching the out-of-range branch (a
go panic). -/
theorem c10_first_newStateHistory_not_total : newStateHistory1 c10nodes = none := by
  rfl

/-- `accountMetadata` (second state-history file). -/
structure AccountMetadata where
  Hash : Hash
  Offset : Nat
  Length : Nat
  SlotOffset : Nat
  SlotNumber : Nat
  deriving DecidableEq

/-- `storageMetadata` (second state-history file). -/
structure StorageMetadata where
  Hash : Hash
  Offset : Nat
  Length : Nat
  deriving DecidableEq

/-- Big-endian byte decomposition of width `w` (`binary.BigEndian.PutUint32`
and the 32-byte hash serialization). -/
def beBytes (w : Nat) (n : Nat) : List Nat :=
  (List.range w).map (fun i => n / 256 ^ (w - 1 - i) % 256)

/-- `accountIndexes.encode` (second implementation). -/
def encodeAccountMetas (is : List AccountMetadata) : List Nat :=
  is.foldl
    (fun b i => b ++ beBytes 32 i.Hash ++ beBytes 4 (i.Offset % 2 ^ 32) ++
      beBytes 4 (i.Length % 2 ^ 32) ++ beBytes 4 (i.SlotOffset % 2 ^ 32) ++
      beBytes 4 (i.SlotNumber % 2 ^ 32)) []

/-- `slotIndexes.encode` (second implementation). -/
def encodeStorageMetas (is : List StorageMetadata) : List Nat :=
  is.foldl
    (fun b i => b ++ beBytes 32 i.Hash ++ beBytes 4 (i.Offset % 2 ^ 32) ++
      beBytes 4 (i.Length % 2 ^ 32)) []

/-- `newStorageMetadata`: index one account's storage-slot history at
consecutive data offsets. -/
def newStorageMetadata (offset : Nat) (storage : List ElementHistory) :
    List StorageMetadata × List Nat × Nat :=
  storage.foldl
    (fun st slot =>
      (st.1 ++ [⟨bytesToHash slot.Key, st.2.2, slot.Prev.length % 2 ^ 32⟩],
        st.2.1 ++ slot.Prev, st.2.2 + slot.Prev.length))
    ([], [], offset)

/-- `newAccountIndex` (second implementation): build one account metadata
record. -/
def newAccountIndex2 (element : ElementHistory) (accountOffset : Nat)
    (slotIdx : List StorageMetadata) (slotOffset : Nat) : AccountMetadata :=
  ⟨bytesToHash element.Key, accountOffset, element.Prev.length % 2 ^ 32,
    slotOffset, slotIdx.length % 2 ^ 32⟩

/-- The second `newStateHistory` implementation: walk the account-trie
leaves (owner zero) and use each leaf's key hash to find its storage
leaves. -/
def newStateHistory2 (nodes : NodeMap) :
    List AccountMetadata × List StorageMetadata × List Nat × List Nat :=
  let leaves := nodes.foldl
    (fun lv ow =>
      alistSet lv ow.1 ((resolvePrevLeaves ow.2).map (fun pr => ElementHistory.mk pr.1 pr.2)))
    []
  let fin := ((alistGet leaves 0).getD []).foldl
    (fun (st : (List AccountMetadata × List StorageMetadata) ×
        (List Nat × List Nat) × Nat × Nat × Nat) element =>
      let accountHash := bytesToHash element.Key
      let slots := (alistGet leaves accountHash).getD []
      let r := newStorageMetadata st.2.2.2.2 slots
      let aMeta := newAccountIndex2 element st.2.2.1 r.1 st.2.2.2.1
      ((st.1.1 ++ [aMeta], st.1.2 ++ r.1),
        (st.2.1.1 ++ element.Prev, st.2.1.2 ++ r.2.1),
        st.2.2.1 + element.Prev.length % 2 ^ 32,
        st.2.2.2.1 + r.1.length % 2 ^ 32, r.2.2))
    (([], []), ([], []), 0, 0, 0)
  (fin.1.1, fin.1.2, fin.2.1.1, fin.2.1.2)

/-! ### Layers, the heap of layer objects and the database state -/

/-- The clean cache: encoded node blobs keyed by node hash. -/
abbrev CleanCache := List (Hash × List Nat)

/-- The key-value store: node blobs keyed by `(owner, path)` — owner zero
keys the account-trie table, other owners the storage-trie table — plus
the persistent `ReverseDiffHead` marker. -/
structure KV where
  data : List ((Hash × PathB) × List Nat)
  rdHead : Nat

/-- Content hash of a stored blob (`crypto.Keccak256Hash`), modelled as an
always-nonzero fold so that no blob hashes to the zero hash. -/
def keccakB (b : List Nat) : Hash := 1 + b.foldl (fun a x => a * 256 + x) 0

/-- `diskLayer` (snap_disklayer.go): root, persisted reverse-diff id,
optional clean cache, dirty aggregation cache and stale flag.  The shared
key-value store lives in the database state. -/
structure DiskRec where
  root : Hash
  diffid : Nat
  clean : Option CleanCache
  dirty : SlimMap
  stale : Bool

/-- `diffLayer`: root, reverse-diff id, one block's dirty nodes, the
parent layer's heap address (a go pointer, mutable during cap) and the
stale flag. -/
structure DiffRec where
  root : Hash
  diffid : Nat
  nodes : NodeMap
  parent : Addr
  stale : Bool

/-- A snapshot layer object on the heap. -/
inductive LayerRec : Type
  | disk (d : DiskRec)
  | diff (d : DiffRec)

/-- `Root()` of a layer. -/
def LayerRec.root : LayerRec → Hash
  | .disk d => d.root
  | .diff d => d.root

/-- `Stale()` of a layer. -/
def LayerRec.stale : LayerRec → Bool
  | .disk d => d.stale
  | .diff d => d.stale

/-- `ID()` of a layer (the reverse-diff id). -/
def LayerRec.diffid : LayerRec → Nat
  | .disk d => d.diffid
  | .diff d => d.diffid

/-- `MarkStale`: sets the stale flag; panics (`none`) when the layer is
already stale. -/
def markStale : LayerRec → Option LayerRec
  | .disk d => if d.stale then none else some (.disk { d with stale := true })
  | .diff d => if d.stale then none else some (.diff { d with stale := true })

/-- An append-only freezer instance; `broken` injects the I/O failure of
an append (spec §7: append failures are surfaced). -/
structure Freezer where
  items : List (Nat × List (List Nat))
  broken : Bool

/-- The database state: the heap of layer objects, the next fresh
address, the layer tree's root index, the key-value store, the two
optional freezers, the reverse-diff retention limit and the dirty-cache
flush threshold. -/
structure St where
  heap : List (Addr × LayerRec)
  next : Addr
  layers : List (Hash × Addr)
  kv : KV
  freezer : Option Freezer
  stateFreezer : Option Freezer
  statelimit : Nat
  dirtyCap : Nat

/-- Read a layer object from the heap (dereference a go pointer). -/
def heapGet (h : List (Addr × LayerRec)) (a : Addr) : Option LayerRec := alistGet h a

/-- Overwrite the layer object at an address. -/
def setLayer (s : St) (a : Addr) (l : LayerRec) : St :=
  { s with heap := alistSet s.heap a l }

/-- Set the stale flag of the layer at an address (the in-place
`dl.stale = true` of `commit` / `revert`). -/
def setStale (s : St) (a : Addr) : St :=
  match heapGet s.heap a with
  | some (.disk d) => setLayer s a (.disk { d with stale := true })
  | some (.diff d) => setLayer s a (.diff { d with stale := true })
  | none => s

/-- Rebind a diff layer's parent pointer (`dl.parent = result`). -/
def setParent (s : St) (a : Addr) (p : Addr) : St :=
  match heapGet s.heap a with
  | some (.diff d) => setLayer s a (.diff { d with parent := p })
  | _ => s

/-- Allocate a fresh layer object, returning its address. -/
def allocLayer (s : St) (l : LayerRec) : St × Addr :=
  ({ s with heap := s.heap ++ [(s.next, l)], next := s.next + 1 }, s.next)

/-- The root hash of the empty trie (`emptyRoot`), a fixed nonzero
constant distinct from the zero hash. -/
def emptyRoot : Hash := 1

/-- `convertEmpty`: normalize the zero hash to `emptyRoot`. -/
def convertEmpty (h : Hash) : Hash := if h = 0 then emptyRoot else h

/-! ### Node lookups (diskLayer.node / diffLayer.node) -/

/-- Modelled from the spec (§4.4, the diskcache file is not in the
sources): `diskcache.node` is a hash-checked lookup in the dirty map that
returns an *unexpected-node* error on hash mismatch and `nil` on a miss. -/
def diskcacheNode (dirty : SlimMap) (owner : Hash) (path : PathB) (hash : Hash) :
    Except Err (Option MemoryNode) :=
  match alistGet dirty owner with
  | none => .ok none
  | some subset =>
    match alistGet subset path with
    | none => .ok none
    | some n => if n.hash ≠ hash then .error .unexpectedNode else .ok (some n)

/-- Modelled from the spec (§6, `rawdb.ReadAccountTrieNode` /
`ReadStorageTrieNode` are not in the sources): read the blob stored under
`(owner, path)` and return it with its content hash; an absent key yields
the empty blob and the zero hash. -/
def readTrieNode (kv : KV) (owner : Hash) (path : PathB) : List Nat × Hash :=
  match alistGet kv.data (owner, path) with
  | none => ([], 0)
  | some b => (b, keccakB b)

/-- `diskLayer.node` (snap_disklayer.go): stale check, dirty cache, clean
cache, then the key-value store with a hash check; returns the found node
(if any) together with the possibly grown clean cache. -/
def diskLayerNode (kv : KV) (dl : DiskRec) (owner : Hash) (path : PathB)
    (hash : Hash) (depth : Nat) : Except Err (Option MemoryNode × Option CleanCache) :=
  let _ := depth
  if dl.stale then .error .snapshotStale
  else
    match diskcacheNode dl.dirty owner path hash with
    | .error e => .error e
    | .ok (some n) => .ok (some n, dl.clean)
    | .ok none =>
      let cblob := match dl.clean with
        | some cc => (alistGet cc hash).getD []
        | none => []
      if cblob ≠ [] then .ok (some ⟨hash, cblob.length % 2 ^ 16, some (.raw cblob)⟩, dl.clean)
      else
        let r := readTrieNode kv owner path
        if r.2 ≠ hash then .error .unexpectedNode
        else
          let clean2 := match dl.clean with
            | some cc => if r.1 ≠ [] then some (alistSet cc hash r.1) else dl.clean
            | none => none
          if r.1 = [] then .ok (none, clean2)
          else .ok (some ⟨hash, r.1.length % 2 ^ 16, some (.raw r.1)⟩, clean2)

/-- `diffLayer.node` / `diskLayer.node` dispatch along the parent chain:
a diff layer serves its own map (hash-checked) or recurses into its
parent; the disk layer ends the walk.  The state is returned because the
disk lookup can grow the clean cache.  Fuel bounds the walk (a model
artifact; any fuel larger than the chain length is enough). -/
def nodeAt (s : St) : Nat → Addr → Hash → PathB → Hash → Nat →
    St × Except Err (Option MemoryNode)
  | 0, _, _, _, _, _ => (s, .error .internal)
  | fuel + 1, a, owner, path, hash, depth =>
    match heapGet s.heap a with
    | none => (s, .error .internal)
    | some (.diff d) =>
      if d.stale then (s, .error .snapshotStale)
      else
        match alistGet d.nodes owner with
        | some subset =>
          match alistGet subset path with
          | some n =>
            if n.mnode.hash ≠ hash then (s, .error .unexpectedNode)
            else (s, .ok (some n.unwrap))
          | none => nodeAt s fuel d.parent owner path hash (depth + 1)
        | none => nodeAt s fuel d.parent owner path hash (depth + 1)
    | some (.disk d) =>
      match diskLayerNode s.kv d owner path hash depth with
      | .error e => (s, .error e)
      | .ok (n, clean2) => (setLayer s a (.disk { d with clean := clean2 }), .ok n)

mutual

/-- Modelled from the spec: `nodeToBytes`, the opaque node encoder (a raw
node is its own encoding). -/
def encodeTNode : TNode → List Nat
  | .short k v => 0 :: k ++ encodeTNode v
  | .full cs => 1 :: encodeChildren cs
  | .value b => 2 :: b
  | .hashn h => 3 :: [h]
  | .raw b => b

/-- Child list encoding. -/
def encodeChildren : List (Option TNode) → List Nat
  | [] => []
  | none :: rest => 4 :: encodeChildren rest
  | some c :: rest => encodeTNode c ++ encodeChildren rest

end

/-- `memoryNode.obj`: the decoded node (decoding is the identity in this
embedding). -/
def nodeObj (m : MemoryNode) : Option TNode := m.node

/-- `memoryNode.rlp`: the encoded blob — directly for a raw node,
re-generated otherwise. -/
def nodeRlp (m : MemoryNode) : List Nat :=
  match m.node with
  | some (.raw b) => b
  | some t => encodeTNode t
  | none => []

/-- `Node` of a snapshot layer: `node` then unwrap to the decoded object;
a missing node is `(nil, nil)`. -/
def NodeOf (s : St) (fuel : Nat) (a : Addr) (owner : Hash) (path : PathB)
    (hash : Hash) : St × Except Err (Option TNode) :=
  match nodeAt s fuel a owner path hash 0 with
  | (s2, .error e) => (s2, .error e)
  | (s2, .ok none) => (s2, .ok none)
  | (s2, .ok (some n)) => (s2, .ok (nodeObj n))

/-- `NodeBlob` of a snapshot layer: `node` then the encoded blob. -/
def NodeBlobOf (s : St) (fuel : Nat) (a : Addr) (owner : Hash) (path : PathB)
    (hash : Hash) : St × Except Err (Option (List Nat)) :=
  match nodeAt s fuel a owner path hash 0 with
  | (s2, .error e) => (s2, .error e)
  | (s2, .ok none) => (s2, .ok none)
  | (s2, .ok (some n)) => (s2, .ok (some (nodeRlp n)))

/-- C2: once a layer's stale flag is set, every `node` / `Node` /
`NodeBlob` call on it fails with *snapshot-stale* (leaving the state
untouched), and `MarkStale` on an already-stale layer panics — so a layer
becomes stale at most once. -/
theorem c2_stale_layer_behavior (s : St) (fuel : Nat) (a : Addr) (l : LayerRec)
    (hl : heapGet s.heap a = some l) (hstale : l.stale = true) :
    (∀ owner path hash depth,
      nodeAt s (fuel + 1) a owner path hash depth = (s, .error .snapshotStale)) ∧
    (∀ owner path hash,
      NodeOf s (fuel + 1) a owner path hash = (s, .error .snapshotStale)) ∧
    (∀ owner path hash,
      NodeBlobOf s (fuel + 1) a owner path hash = (s, .error .snapshotStale)) ∧
    markStale l = none := by
  have hnode : ∀ owner path hash depth,
      nodeAt s (fuel + 1) a owner path hash depth = (s, .error .snapshotStale) := by
    intro owner path hash depth
    cases l with
    | diff d =>
      have hd : d.stale = true := hstale
      simp [nodeAt, hl, hd]
    | disk d =>
      have hd : d.stale = true := hstale
      simp [nodeAt, hl, diskLayerNode, hd]
  refine ⟨hnode, ?_, ?_, ?_⟩
  · intro owner path hash
    simp [NodeOf, hnode owner path hash 0]
  · intro owner path hash
    simp [NodeBlobOf, hnode owner path hash 0]
  · cases l with
    | diff d => have hd : d.stale = true := hstale; simp [markStale, hd]
    | disk d => have hd : d.stale = true := hstale; simp [markStale, hd]

/-- A one-layer state holding a single stale diff layer. -/
def c2state : St :=
  { heap := [(0, .diff ⟨5, 1, [], 0, true⟩)], next := 1, layers := [(5, 0)],
    kv := ⟨[], 0⟩, freezer := none, stateFreezer := none, statelimit := 0, dirtyCap := 0 }

/-- Witness for C2 at the concrete stale layer of `c2state`. -/
theorem c2_stale_layer_behavior_witness :
    (∀ owner path hash depth,
      nodeAt c2state 1 0 owner path hash depth = (c2state, .error .snapshotStale)) ∧
    (∀ owner path hash,
      NodeOf c2state 1 0 owner path hash = (c2state, .error .snapshotStale)) ∧
    (∀ owner path hash,
      NodeBlobOf c2state 1 0 owner path hash = (c2state, .error .snapshotStale)) ∧
    markStale (.diff ⟨5, 1, [], 0, true⟩) = none :=
  c2_stale_layer_behavior c2state 0 0 (.diff ⟨5, 1, [], 0, true⟩) rfl rfl

/-- C7 (amended): a diff layer with a local entry at the requested
`(owner, path)` hash-checks it — on mismatch (which includes a deletion
tombstone looked up under a nonzero hash) it fails with *unexpected-node*;
on a match it returns the unwrapped memory node (for a tombstone that is
the empty memory node, never `(nil, nil)`). -/
theorem c7_local_entry_lookup (s : St) (fuel : Nat) (a : Addr) (d : DiffRec)
    (owner : Hash) (path : PathB) (hash : Hash) (depth : Nat)
    (subset : List (PathB × NodeWithPrev)) (n : NodeWithPrev)
    (hl : heapGet s.heap a = some (.diff d)) (hstale : d.stale = false)
    (hown : alistGet d.nodes owner = some subset)
    (hpath : alistGet subset path = some n) :
    nodeAt s (fuel + 1) a owner path hash depth =
      (s, if n.mnode.hash ≠ hash then .error .unexpectedNode
          else .ok (some n.unwrap)) := by
  by_cases hh : n.mnode.hash ≠ hash <;>
    simp [nodeAt, hl, hstale, hown, hpath, hh]

/-- A diff layer over a disk layer whose own map holds a deletion
tombstone (`hash = 0`) at owner `0`, path `[0]`. -/
def c7state : St :=
  { heap := [(0, .disk ⟨4, 0, none, [], false⟩),
             (1, .diff ⟨9, 1, [(0, [([0], ⟨⟨0, 0, none⟩, none⟩)])], 0, false⟩)],
    next := 2, layers := [(4, 0), (9, 1)],
    kv := ⟨[], 0⟩, freezer := none, stateFreezer := none, statelimit := 0, dirtyCap := 0 }

/-- Counterexample to C7 as stated: looking up the tombstone at
`(0, [0])` with the nonzero hash `7` yields *unexpected-node*, not the
claimed `(nil, nil)`. -/
theorem c7_counterexample :
    (nodeAt c7state 2 1 0 [0] 7 0).2 = .error .unexpectedNode ∧
    (nodeAt c7state 2 1 0 [0] 7 0).2 ≠ .ok none := by
  refine ⟨rfl, ?_⟩
  intro h
  rw [show (nodeAt c7state 2 1 0 [0] 7 0).2 = .error .unexpectedNode from rfl] at h
  exact Except.noConfusion h

/-- Witness for C7 (amended) at the tombstone entry of `c7state`: the
mismatching lookup errs, the matching lookup returns the tombstone's
empty memory node. -/
theorem c7_local_entry_lookup_witness :
    nodeAt c7state 2 1 0 [0] 9 0 =
      (c7state, if (0 : Hash) ≠ 9 then .error .unexpectedNode
        else .ok (some (NodeWithPrev.unwrap ⟨⟨0, 0, none⟩, none⟩))) :=
  c7_local_entry_lookup c7state 1 1 ⟨9, 1, [(0, [([0], ⟨⟨0, 0, none⟩, none⟩)])], 0, false⟩
    0 [0] 9 0 [([0], ⟨⟨0, 0, none⟩, none⟩)] ⟨⟨0, 0, none⟩, none⟩ rfl rfl rfl rfl

/-- A fresh disk layer with empty dirty cache, no clean cache. -/
def c6disk : DiskRec := ⟨7, 3, none, [], false⟩

/-- C6 (code bug): a lookup of a node absent from the dirty cache, the
clean cache and the key-value store returns the *unexpected-node* error —
the absent key reads back as the zero hash, which cannot match the
requested nonzero hash — contradicting the function's own doc comment
("No error will be returned if node is not found"). -/
theorem c6_notfound_is_error :
    diskLayerNode ⟨[], 0⟩ c6disk 0 [] 5 0 = .error .unexpectedNode := rfl

/-! ### Reverse diffs and diskLayer.revert -/

/-- `reverseDiff`: version tag, parent and post state roots, and the
per-owner previous values (spec §6 layout, decoded form). -/
structure ReverseDiffR where
  Version : Nat
  Parent : Hash
  Root : Hash
  States : List (Hash × List (PathB × List Nat))

/-- Two-level write into a slim node map. -/
def slimSet (m : SlimMap) (owner : Hash) (path : PathB) (n : MemoryNode) : SlimMap :=
  alistSet m owner (alistSet ((alistGet m owner).getD []) path n)

/-- Modelled from the spec: `reverseDiff.apply` restores every recorded
previous value into the key-value store as one batch — an empty previous
value deletes the key. -/
def reverseDiffApply (data : List ((Hash × PathB) × List Nat)) (diff : ReverseDiffR) :
    List ((Hash × PathB) × List Nat) :=
  diff.States.foldl
    (fun data ows =>
      ows.2.foldl
        (fun data it =>
          if it.2 = [] then alistDel data (ows.1, it.1)
          else alistSet data (ows.1, it.1) it.2)
        data)
    data

/-- Modelled from the spec (§4.4): `diskcache.revert` applies a reverse
diff against the buffered entries in place (previous values become raw
entries, empty previous values become tombstones). -/
def diskcacheRevert (dirty : SlimMap) (diff : ReverseDiffR) : Except Err SlimMap :=
  .ok (diff.States.foldl
    (fun dm ows =>
      ows.2.foldl
        (fun dm it =>
          let mn : MemoryNode :=
            if it.2 = [] then ⟨0, 0, none⟩
            else ⟨keccakB it.2, it.2.length % 2 ^ 16, some (.raw it.2)⟩
          slimSet dm ows.1 it.1 mn)
        dm)
    dirty)

/-- `diskLayer.revert` (snap_disklayer.go): guard the reverse diff
against the layer's root and diff id, then mark the layer stale and apply
the diff — directly on the key-value store when the dirty cache is empty
(also moving the `ReverseDiffHead` marker back), in memory otherwise —
and return the new disk layer at the parent root and `diffid - 1`.  The
first component is the (possibly staled) receiver and the store, so
partial mutations stay visible. -/
def diskRevert (dl : DiskRec) (kv : KV) (diff : ReverseDiffR) (diffid : Nat) :
    (DiskRec × KV) × Except Err DiskRec :=
  if diff.Root ≠ dl.root then ((dl, kv), .error .unmatchedReverseDiff)
  else if diffid ≠ dl.diffid then ((dl, kv), .error .unmatchedReverseDiff)
  else if dl.diffid = 0 then ((dl, kv), .error .stateUnrecoverable)
  else
    let dl2 := { dl with stale := true }
    if dl.dirty.isEmpty then
      let kv2 : KV := ⟨reverseDiffApply kv.data diff, diffid - 1⟩
      ((dl2, kv2), .ok ⟨diff.Parent, dl.diffid - 1, dl.clean, dl.dirty, false⟩)
    else
      match diskcacheRevert dl.dirty diff with
      | .error e => ((dl2, kv), .error e)
      | .ok dirty2 =>
        (({ dl2 with dirty := dirty2 }, kv),
          .ok ⟨diff.Parent, dl.diffid - 1, dl.clean, dirty2, false⟩)

/-- C4 (amended): `revert` succeeds exactly when `diff.root` matches the
layer's root, `diffid` matches the layer's id and the id is nonzero; a
root or id mismatch fails with *unmatched-reverse-diff* (not
*unrecoverable*), a zero id with *unrecoverable*; every guard failure
leaves the layer and the store untouched (in particular not stale) and
produces no new disk layer. -/
theorem c4_revert_guards (dl : DiskRec) (kv : KV) (diff : ReverseDiffR) (diffid : Nat) :
    (diff.Root ≠ dl.root →
      diskRevert dl kv diff diffid = ((dl, kv), .error .unmatchedReverseDiff)) ∧
    (diff.Root = dl.root → diffid ≠ dl.diffid →
      diskRevert dl kv diff diffid = ((dl, kv), .error .unmatchedReverseDiff)) ∧
    (diff.Root = dl.root → diffid = dl.diffid → dl.diffid = 0 →
      diskRevert dl kv diff diffid = ((dl, kv), .error .stateUnrecoverable)) ∧
    (diff.Root = dl.root → diffid = dl.diffid → dl.diffid ≠ 0 →
      ∃ old2 kv2 ndl, diskRevert dl kv diff diffid = ((old2, kv2), .ok ndl) ∧
        ndl.root = diff.Parent ∧ ndl.diffid = dl.diffid - 1 ∧ old2.stale = true) := by
  refine ⟨?_, ?_, ?_, ?_⟩
  · intro h; simp [diskRevert, h]
  · intro h1 h2; simp [diskRevert, h1, h2]
  · intro h1 h2 h3; simp [diskRevert, h1, h2, h3]
  · intro h1 h2 h3
    by_cases hd : dl.dirty.isEmpty = true
    · refine ⟨{ dl with stale := true }, ⟨reverseDiffApply kv.data diff, diffid - 1⟩,
        ⟨diff.Parent, dl.diffid - 1, dl.clean, dl.dirty, false⟩, ?_, rfl, rfl, rfl⟩
      simp [diskRevert, h1, h2, h3, hd]
    · obtain ⟨d2, hd2⟩ : ∃ d2, diskcacheRevert dl.dirty diff = .ok d2 := ⟨_, rfl⟩
      refine ⟨{ dl with stale := true, dirty := d2 }, kv,
        ⟨diff.Parent, dl.diffid - 1, dl.clean, d2, false⟩, ?_, rfl, rfl, rfl⟩
      simp [diskRevert, h1, h2, h3, hd, hd2]

/-- Concrete disk layer for the C4 counterexample. -/
def c4disk : DiskRec := ⟨5, 3, none, [], false⟩

/-- Counterexample to C4 as stated: reverting with a reverse diff whose
root does not match fails with *unmatched-reverse-diff*, not with the
*unrecoverable* kind the claim asserts for every failing case. -/
theorem c4_counterexample :
    (diskRevert c4disk ⟨[], 3⟩ ⟨0, 4, 6, []⟩ 3).2 = .error .unmatchedReverseDiff ∧
    (diskRevert c4disk ⟨[], 3⟩ ⟨0, 4, 6, []⟩ 3).2 ≠ .error .stateUnrecoverable := by
  refine ⟨rfl, ?_⟩
  intro h
  rw [show (diskRevert c4disk ⟨[], 3⟩ ⟨0, 4, 6, []⟩ 3).2 =
    .error .unmatchedReverseDiff from rfl] at h
  rw [Except.error.injEq] at h
  exact Err.noConfusion h

/-- Witness for C4 (amended): the root-mismatch guard at concrete inputs. -/
theorem c4_revert_guards_witness :
    diskRevert c4disk ⟨[], 3⟩ ⟨0, 4, 7, []⟩ 9 = ((c4disk, ⟨[], 3⟩), .error .unmatchedReverseDiff) :=
  (c4_revert_guards c4disk ⟨[], 3⟩ ⟨0, 4, 7, []⟩ 9).1 (by decide)

/-! ### diskLayer.commit and the freezer appends -/

/-- The slimming loop of `commit`: drop previous values from the bottom
diff layer's nodes. -/
def slimOf (nodes : NodeMap) : SlimMap :=
  nodes.map (fun ows => (ows.1, ows.2.map (fun pn => (pn.1, pn.2.unwrap))))

/-- Modelled from the spec (§4.4): `diskcache.commit` merges the given
mutations into the cache; deletion tombstones overwrite prior entries. -/
def diskcacheCommit (dirty : SlimMap) (slim : SlimMap) : SlimMap :=
  slim.foldl
    (fun dm ows => ows.2.foldl (fun dm pn => slimSet dm ows.1 pn.1 pn.2) dm)
    dirty

/-- Number of buffered entries, standing in for the byte size used by the
flush threshold. -/
def slimSize (m : SlimMap) : Nat := (m.map (fun ows => ows.2.length)).sum

/-- Modelled from the spec (§4.4): `diskcache.mayFlush` — when forced or
over the threshold, write every buffered entry to the key-value store in
one batch together with the persistent diff-id marker, clear the cache
and populate the clean cache. -/
def mayFlush (s : St) (a : Addr) (force : Bool) : St :=
  match heapGet s.heap a with
  | some (.disk d) =>
    if force || slimSize d.dirty > s.dirtyCap then
      let kvdata := d.dirty.foldl
        (fun data ows =>
          ows.2.foldl
            (fun data pn =>
              if pn.2.isDeleted then alistDel data (ows.1, pn.1)
              else alistSet data (ows.1, pn.1) (nodeRlp pn.2))
            data)
        s.kv.data
      let clean2 := match d.clean with
        | none => none
        | some cc => some (d.dirty.foldl
            (fun cc ows =>
              ows.2.foldl
                (fun cc pn =>
                  if pn.2.isDeleted then cc else alistSet cc pn.2.hash (nodeRlp pn.2))
                cc)
            cc)
      setLayer { s with kv := ⟨kvdata, d.diffid⟩ } a (.disk { d with dirty := [], clean := clean2 })
    else s
  | _ => s

/-- Modelled from the spec (storeReverseDiff is not in the sources):
construct the reverse diff of the bottom layer, append it to the
reverse-diff freezer keyed by its diff id and prune records older than
the retention limit; a broken freezer surfaces the append failure. -/
def storeReverseDiffM (s : St) (parentRoot : Hash) (bottom : DiffRec) : St × Except Err Unit :=
  match s.freezer with
  | none => (s, .ok ())
  | some fz =>
    if fz.broken then (s, .error .freezerFailed)
    else
      let record : List (List Nat) :=
        [[0], beBytes 32 parentRoot, beBytes 32 bottom.root]
      let items2 := fz.items ++ [(bottom.diffid, record)]
      let fz2 := { fz with items := items2.filter (fun it => it.1 + s.statelimit ≥ bottom.diffid) }
      ({ s with freezer := some fz2 }, .ok ())

/-- `storeStateHistory` (in the sources): build the state history with
the second `newStateHistory`, encode the four table blobs and append them
keyed by the diff id; the source returns `nil` unconditionally, so a
failing append is swallowed. -/
def storeStateHistoryM (s : St) (bottom : DiffRec) : St :=
  match s.stateFreezer with
  | none => s
  | some fz =>
    if fz.broken then s
    else
      let r := newStateHistory2 bottom.nodes
      let fz2 := { fz with items := fz.items ++
        [(bottom.diffid,
          [encodeAccountMetas r.1, encodeStorageMetas r.2.1, r.2.2.1, r.2.2.2])] }
      { s with stateFreezer := some fz2 }

/-- `diskLayer.commit` (snap_disklayer.go): mark the receiver stale
first, append the reverse diff and the state history, build the new disk
layer over the merged dirty cache and maybe flush it.  The state is
always returned so the pre-error stale marking stays visible. -/
def diskCommit (s : St) (dlA : Addr) (dl : DiskRec) (bottom : DiffRec) (force : Bool) :
    St × Except Err Addr :=
  let s1 := setStale s dlA
  match storeReverseDiffM s1 dl.root bottom with
  | (s2, .error e) => (s2, .error e)
  | (s2, .ok _) =>
    let s3 := storeStateHistoryM s2 bottom
    let ndl : DiskRec :=
      ⟨bottom.root, bottom.diffid, dl.clean, diskcacheCommit dl.dirty (slimOf bottom.nodes), false⟩
    let r := allocLayer s3 (.disk ndl)
    (mayFlush r.1 r.2 force, .ok r.2)

/-- C5 (amended): when the reverse-diff freezer append fails during
`commit`, the error is surfaced and no new disk layer is produced (heap
allocation counter and layer tree untouched) — but the old disk layer has
already been marked stale, because `commit` sets the stale flag before
appending. -/
theorem c5_commit_freezer_failure (s : St) (dlA : Addr) (dl : DiskRec) (bottom : DiffRec)
    (force : Bool) (fz : Freezer) (hdl : heapGet s.heap dlA = some (.disk dl))
    (hfz : s.freezer = some fz) (hbroken : fz.broken = true) :
    diskCommit s dlA dl bottom force = (setStale s dlA, .error .freezerFailed) ∧
    heapGet (setStale s dlA).heap dlA = some (.disk { dl with stale := true }) ∧
    (setStale s dlA).layers = s.layers ∧
    (setStale s dlA).next = s.next := by
  have hset : setStale s dlA = setLayer s dlA (.disk { dl with stale := true }) := by
    rw [setStale, hdl]
  refine ⟨?_, ?_, ?_, ?_⟩
  · simp [diskCommit, storeReverseDiffM, hset, setLayer, hfz, hbroken]
  · rw [hset]
    simp [setLayer, heapGet, alistGet_set_self]
  · rw [hset]; rfl
  · rw [hset]; rfl

/-- A disk layer plus one diff layer with a broken reverse-diff freezer. -/
def c5state : St :=
  { heap := [(0, .disk ⟨1, 0, none, [], false⟩), (1, .diff ⟨2, 1, [], 0, false⟩)],
    next := 2, layers := [(1, 0), (2, 1)], kv := ⟨[], 0⟩,
    freezer := some ⟨[], true⟩, stateFreezer := none, statelimit := 128, dirtyCap := 0 }

/-- Counterexample to C5 as stated: after a failing reverse-diff append
the commit error is surfaced, yet the old disk layer is already stale —
it does not "remain non-stale" as claimed. -/
theorem c5_counterexample :
    (diskCommit c5state 0 ⟨1, 0, none, [], false⟩ ⟨2, 1, [], 0, false⟩ true).2 =
      .error .freezerFailed ∧
    (heapGet (diskCommit c5state 0 ⟨1, 0, none, [], false⟩ ⟨2, 1, [], 0, false⟩ true).1.heap 0).map
      LayerRec.stale = some true :=
  ⟨rfl, rfl⟩

/-- Witness for C5 (amended) at the broken freezer of `c5state`. -/
theorem c5_commit_freezer_failure_witness :
    diskCommit c5state 0 ⟨1, 0, none, [], false⟩ ⟨2, 1, [], 0, false⟩ true =
      (setStale c5state 0, .error .freezerFailed) ∧
    heapGet (setStale c5state 0).heap 0 =
      some (.disk { root := 1, diffid := 0, clean := none, dirty := [], stale := true }) ∧
    (setStale c5state 0).layers = c5state.layers ∧
    (setStale c5state 0).next = c5state.next :=
  c5_commit_freezer_failure c5state 0 ⟨1, 0, none, [], false⟩ ⟨2, 1, [], 0, false⟩ true
    ⟨[], true⟩ rfl rfl rfl

/-! ### diffLayer.persist, diffToDisk and the layer tree -/

/-- `diffToDisk` (diff-layer file): dispatch the bottom-most diff into
its parent disk layer's `commit`; any other parent kind is a go panic
(`internal`).  The read-only `diskLayerSnapshot` variant is not part of
the sources and is not modelled. -/
def diffToDisk (s : St) (bottomA : Addr) (force : Bool) : St × Except Err Addr :=
  match heapGet s.heap bottomA with
  | some (.diff bottom) =>
    match heapGet s.heap bottom.parent with
    | some (.disk dl) => diskCommit s bottom.parent dl bottom force
    | _ => (s, .error .internal)
  | _ => (s, .error .internal)

/-- `diffLayer.persist`: persist the parent diff chain bottom-up,
re-binding each layer's parent to the returned disk layer, then merge the
layer itself into disk.  Fuel bounds the recursion depth (model artifact;
any fuel above the chain length behaves like the source). -/
def persist : Nat → St → Addr → Bool → St × Except Err Addr
  | 0, s, _, _ => (s, .error .internal)
  | fuel + 1, s, a, force =>
    match heapGet s.heap a with
    | some (.diff d) =>
      match heapGet s.heap d.parent with
      | some (.diff _) =>
        match persist fuel s d.parent force with
        | (s1, .error e) => (s1, .error e)
        | (s1, .ok b) => diffToDisk (setParent s1 a b) a force
      | _ => diffToDisk s a force
    | _ => (s, .error .internal)

/-- `layerTree.add`: normalize the roots, reject self-loops, require the
parent layer, then link a new diff layer with `id = parent.ID() + 1` and
index it by its root. -/
def treeAdd (s : St) (root parentRoot : Hash) (nodes : NodeMap) : St × Except Err Unit :=
  let root2 := convertEmpty root
  let parentRoot2 := convertEmpty parentRoot
  if root2 = parentRoot2 then (s, .error .snapshotCycle)
  else
    match alistGet s.layers parentRoot2 with
    | none => (s, .error .parentMissing)
    | some pa =>
      match heapGet s.heap pa with
      | none => (s, .error .internal)
      | some pl =>
        let r := allocLayer s (.diff ⟨root2, pl.diffid + 1, nodes, pa, false⟩)
        ({ r.1 with layers := alistSet r.1.layers root2 r.2 }, .ok ())

/-- The dive loop of `cap`: walk `keep - 1` diff steps down from the
requested layer; hitting a non-diff parent early returns `none` ("diff
stack too shallow" — the cap is a successful no-op). -/
def dive (h : List (Addr × LayerRec)) : Nat → Addr → DiffRec → Option (Addr × DiffRec)
  | 0, a, d => some (a, d)
  | i + 1, _, d =>
    match heapGet h d.parent with
    | some (.diff pd) => dive h i d.parent pd
    | _ => none

/-- The children index built by `cap` before removal: for every diff
layer in the tree, record its root under its parent's root. -/
def childrenMap (h : List (Addr × LayerRec)) (layers : List (Hash × Addr)) :
    List (Hash × List Hash) :=
  layers.foldl
    (fun cm ra =>
      match heapGet h ra.2 with
      | some (.diff d) =>
        match heapGet h d.parent with
        | some pl => alistSet cm pl.root ((alistGet cm pl.root).getD [] ++ [ra.1])
        | none => cm
      | _ => cm)
    []

/-- State of the recursive removal: the surviving layer index and the
children index. -/
structure RemState where
  layers : List (Hash × Addr)
  children : List (Hash × List Hash)

mutual

/-- The recursive `remove` of `cap`: delete a root, remove all its
children, then drop its children entry.  Fuel bounds the recursion (the
source recursion is bounded by the tree size). -/
def removeRec : Nat → Hash → RemState → RemState
  | 0, _, st => st
  | fuel + 1, root, st =>
    let st1 : RemState := ⟨alistDel st.layers root, st.children⟩
    let st2 := removeList fuel ((alistGet st1.children root).getD []) st1
    ⟨st2.layers, alistDel st2.children root⟩

/-- Children loop of `remove`. -/
def removeList : Nat → List Hash → RemState → RemState
  | _, [], st => st
  | fuel, c :: cs, st => removeList fuel cs (removeRec fuel c st)

end

/-- The removal phase of `cap`: build the children index, then remove
every still-present layer whose stale flag is set, together with its
descendants. -/
def capRemove (h : List (Addr × LayerRec)) (layers : List (Hash × Addr)) :
    List (Hash × Addr) :=
  (layers.foldl
    (fun (st : RemState) (ra : Hash × Addr) =>
      if (alistGet st.layers ra.1).isSome then
        match heapGet h ra.2 with
        | some l => if l.stale then removeRec (layers.length + 1) ra.1 st else st
        | none => st
      else st)
    (⟨layers, childrenMap h layers⟩ : RemState)).layers

/-- `layerTree.cap` (layer-tree file): resolve the snapshot — a disk
layer is an error; with `layers = 0` persist the whole chain and replace
the tree with the new disk layer; otherwise dive, flatten the layer below
the kept chain (if it is a diff), insert the new base, re-parent the
lowest kept diff, and remove stale layers and their descendants.  The
persist fuel `s.next + 1` exceeds any chain length through the heap (a
model artifact). -/
def cap (s : St) (root : Hash) (layers : Nat) : St × Except Err Unit :=
  let root2 := convertEmpty root
  match alistGet s.layers root2 with
  | none => (s, .error .snapshotMissing)
  | some a =>
    match heapGet s.heap a with
    | some (.disk _) => (s, .error .isDiskLayer)
    | none => (s, .error .internal)
    | some (.diff d) =>
      if layers = 0 then
        match persist (s.next + 1) s a true with
        | (s1, .error e) => (s1, .error e)
        | (s1, .ok b) =>
          match heapGet s1.heap b with
          | some bl => ({ s1 with layers := [(bl.root, b)] }, .ok ())
          | none => (s1, .error .internal)
      else
        match dive s.heap (layers - 1) a d with
        | none => (s, .ok ())
        | some (la, ld) =>
          match heapGet s.heap ld.parent with
          | some (.disk _) => (s, .ok ())
          | none => (s, .error .internal)
          | some (.diff _) =>
            match persist (s.next + 1) s ld.parent false with
            | (s1, .error e) => (s1, .error e)
            | (s1, .ok b) =>
              match heapGet s1.heap b with
              | none => (s1, .error .internal)
              | some bl =>
                let s2 := { s1 with layers := alistSet s1.layers bl.root b }
                let s3 := setParent s2 la b
                ({ s3 with layers := capRemove s3.heap s3.layers }, .ok ())

/-- C8 (amended): `cap` on a root that resolves to the disk layer is not
a no-op success — it fails with the "snapshot is disk layer" error and
leaves the state (in particular the layer tree) unchanged. -/
theorem c8_cap_disk_root_errors (s : St) (root : Hash) (a : Addr) (d : DiskRec) (k : Nat)
    (ha : alistGet s.layers (convertEmpty root) = some a)
    (hd : heapGet s.heap a = some (.disk d)) :
    cap s root k = (s, .error .isDiskLayer) := by
  simp [cap, ha, hd]

/-- A tree holding only its disk layer, root `4`. -/
def c8state : St :=
  { heap := [(0, .disk ⟨4, 0, none, [], false⟩)], next := 1, layers := [(4, 0)],
    kv := ⟨[], 0⟩, freezer := none, stateFreezer := none, statelimit := 0, dirtyCap := 0 }

/-- Counterexample to C8 as stated: `cap` on the disk layer's own root
returns an error, not success. -/
theorem c8_counterexample :
    (cap c8state 4 0).2 = .error .isDiskLayer ∧ (cap c8state 4 0).2 ≠ .ok () := by
  refine ⟨rfl, ?_⟩
  intro h
  rw [show (cap c8state 4 0).2 = .error .isDiskLayer from rfl] at h
  exact Except.noConfusion h

/-- Witness for C8 (amended) at `c8state`. -/
theorem c8_cap_disk_root_errors_witness :
    cap c8state 4 2 = (c8state, .error .isDiskLayer) :=
  c8_cap_disk_root_errors c8state 4 0 ⟨4, 0, none, [], false⟩ 2 rfl rfl

/-! ### Heap and state frame lemmas -/

theorem alistGet_mem_of_some {κ α : Type} [DecidableEq κ] {m : List (κ × α)} {k : κ} {v : α}
    (h : alistGet m k = some v) : (k, v) ∈ m := by
  induction m with
  | nil => simp [alistGet] at h
  | cons hd tl ih =>
    obtain ⟨k', v'⟩ := hd
    by_cases hk : k' = k
    · subst hk
      simp [alistGet] at h
      simp [h]
    · simp [alistGet, hk] at h
      exact List.mem_cons_of_mem _ (ih h)

theorem alistGet_append_old {κ α : Type} [DecidableEq κ] (m : List (κ × α)) (e : κ × α)
    (k : κ) (hne : e.1 ≠ k) : alistGet (m ++ [e]) k = alistGet m k := by
  induction m with
  | nil => simp [alistGet, hne]
  | cons hd tl ih =>
    obtain ⟨k', v'⟩ := hd
    by_cases hk : k' = k <;> simp [alistGet, hk, ih]

theorem alistGet_append_new {κ α : Type} [DecidableEq κ] (m : List (κ × α)) (k : κ) (v : α)
    (hfresh : ∀ p ∈ m, p.1 ≠ k) : alistGet (m ++ [(k, v)]) k = some v := by
  induction m with
  | nil => simp [alistGet]
  | cons hd tl ih =>
    obtain ⟨k', v'⟩ := hd
    have hne : k' ≠ k := hfresh (k', v') (by simp)
    simp only [List.cons_append, alistGet_cons, hne, if_false]
    exact ih (fun p hp => hfresh p (by simp [hp]))

/-- All heap addresses are below the allocation counter. -/
def heapBounded (h : List (Addr × LayerRec)) (next : Addr) : Prop :=
  ∀ p ∈ h, p.1 < next

theorem heapBounded_mono {h : List (Addr × LayerRec)} {n n' : Addr}
    (hb : heapBounded h n) (hle : n ≤ n') : heapBounded h n' :=
  fun p hp => lt_of_lt_of_le (hb p hp) hle

theorem heapGet_lt_of_bounded {h : List (Addr × LayerRec)} {n : Addr} {a : Addr}
    {l : LayerRec} (hb : heapBounded h n) (hg : heapGet h a = some l) : a < n :=
  hb (a, l) (alistGet_mem_of_some hg)

theorem heapGet_none_of_ge {h : List (Addr × LayerRec)} {n : Addr} {a : Addr}
    (hb : heapBounded h n) (ha : n ≤ a) : heapGet h a = none := by
  cases hg : heapGet h a with
  | none => rfl
  | some l => exact absurd (heapGet_lt_of_bounded hb hg) (not_lt.mpr ha)

/-- The reverse-diff freezer, when attached, is not broken. -/
def freezerOk (s : St) : Prop := ∀ fz, s.freezer = some fz → fz.broken = false

theorem setLayer_fields (s : St) (a : Addr) (l : LayerRec) :
    (setLayer s a l).next = s.next ∧ (setLayer s a l).layers = s.layers ∧
    (setLayer s a l).kv = s.kv ∧ (setLayer s a l).freezer = s.freezer ∧
    (setLayer s a l).stateFreezer = s.stateFreezer ∧
    (setLayer s a l).statelimit = s.statelimit ∧ (setLayer s a l).dirtyCap = s.dirtyCap :=
  ⟨rfl, rfl, rfl, rfl, rfl, rfl, rfl⟩

theorem heapGet_setLayer_self (s : St) (a : Addr) (l : LayerRec) :
    heapGet (setLayer s a l).heap a = some l := alistGet_set_self _ _ _

theorem heapGet_setLayer_ne (s : St) (a : Addr) (l : LayerRec) (x : Addr) (hx : x ≠ a) :
    heapGet (setLayer s a l).heap x = heapGet s.heap x :=
  alistGet_set_ne _ _ _ _ (fun h => hx h.symm)

theorem mem_alistSet {κ α : Type} [DecidableEq κ] {m : List (κ × α)} {k : κ} {v : α}
    {p : κ × α} (hp : p ∈ alistSet m k v) : p.1 = k ∨ p ∈ m := by
  induction m with
  | nil =>
    simp [alistSet] at hp
    simp [hp]
  | cons hd tl ih =>
    obtain ⟨k', w⟩ := hd
    by_cases hk : k' = k
    · subst hk
      simp only [alistSet, if_pos rfl] at hp
      rcases List.mem_cons.mp hp with rfl | hp
      · exact Or.inl rfl
      · exact Or.inr (List.mem_cons_of_mem _ hp)
    · simp only [alistSet, hk, if_false] at hp
      rcases List.mem_cons.mp hp with rfl | hp
      · exact Or.inr (List.mem_cons_self _ _)
      · rcases ih hp with h | h
        · exact Or.inl h
        · exact Or.inr (List.mem_cons_of_mem _ h)

theorem heapBounded_setLayer {s : St} {a : Addr} {l : LayerRec} {n : Addr}
    (hb : heapBounded s.heap n) (ha : a < n) :
    heapBounded (setLayer s a l).heap n := by
  intro p hp
  rcases mem_alistSet hp with h | h
  · rw [h]; exact ha
  · exact hb p h

theorem allocLayer_spec (s : St) (l : LayerRec) (hb : heapBounded s.heap s.next) :
    (allocLayer s l).2 = s.next ∧ (allocLayer s l).1.next = s.next + 1 ∧
    (allocLayer s l).1.layers = s.layers ∧ (allocLayer s l).1.kv = s.kv ∧
    (allocLayer s l).1.freezer = s.freezer ∧
    (allocLayer s l).1.stateFreezer = s.stateFreezer ∧
    heapGet (allocLayer s l).1.heap s.next = some l ∧
    (∀ x, x ≠ s.next → heapGet (allocLayer s l).1.heap x = heapGet s.heap x) ∧
    heapBounded (allocLayer s l).1.heap (s.next + 1) := by
  refine ⟨rfl, rfl, rfl, rfl, rfl, rfl, ?_, ?_, ?_⟩
  · exact alistGet_append_new _ _ _ (fun p hp => Nat.ne_of_lt (hb p hp))
  · intro x hx
    exact alistGet_append_old _ _ _ (fun h => hx h.symm)
  · intro p hp
    rcases List.mem_append.mp hp with h | h
    · exact Nat.lt_succ_of_lt (hb p h)
    · simp at h
      simp [h]

theorem mayFlush_spec (s : St) (a : Addr) (force : Bool) :
    (mayFlush s a force).next = s.next ∧ (mayFlush s a force).layers = s.layers ∧
    (mayFlush s a force).freezer = s.freezer ∧
    (mayFlush s a force).stateFreezer = s.stateFreezer ∧
    (∀ x, x ≠ a → heapGet (mayFlush s a force).heap x = heapGet s.heap x) ∧
    (∀ d : DiskRec, heapGet s.heap a = some (.disk d) →
      ∃ d2 : DiskRec, heapGet (mayFlush s a force).heap a = some (.disk d2) ∧
        d2.root = d.root ∧ d2.diffid = d.diffid ∧ d2.stale = d.stale) ∧
    (heapBounded s.heap s.next → a < s.next →
      heapBounded (mayFlush s a force).heap s.next) := by
  cases hg : heapGet s.heap a with
  | none =>
    have he : mayFlush s a force = s := by rw [mayFlush, hg]
    rw [he]
    refine ⟨rfl, rfl, rfl, rfl, fun _ _ => rfl, ?_, fun hb _ => hb⟩
    intro d' hd
    cases hd
  | some l =>
    cases l with
    | diff d =>
      have he : mayFlush s a force = s := by rw [mayFlush, hg]
      rw [he]
      refine ⟨rfl, rfl, rfl, rfl, fun _ _ => rfl, ?_, fun hb _ => hb⟩
      intro d' hd
      cases hd
    | disk d =>
      by_cases hc : (force || decide (slimSize d.dirty > s.dirtyCap)) = true
      · have he : mayFlush s a force = setLayer
            { s with kv := ⟨d.dirty.foldl
                (fun data ows =>
                  ows.2.foldl
                    (fun data pn =>
                      if pn.2.isDeleted then alistDel data (ows.1, pn.1)
                      else alistSet data (ows.1, pn.1) (nodeRlp pn.2))
                    data)
                s.kv.data, d.diffid⟩ }
            a (.disk { d with dirty := [], clean := match d.clean with
                | none => none
                | some cc => some (d.dirty.foldl
                    (fun cc ows =>
                      ows.2.foldl
                        (fun cc pn =>
                          if pn.2.isDeleted then cc else alistSet cc pn.2.hash (nodeRlp pn.2))
                        cc)
                    cc) }) := by
          rw [mayFlush, hg]
          simp only [hc, if_true]
        rw [he]
        refine ⟨rfl, rfl, rfl, rfl, ?_, ?_, ?_⟩
        · intro x hx
          exact heapGet_setLayer_ne _ _ _ _ hx
        · intro d' hd
          injection hd with hd2
          injection hd2 with hd3
          subst hd3
          exact ⟨_, heapGet_setLayer_self _ _ _, rfl, rfl, rfl⟩
        · intro hb ha
          exact heapBounded_setLayer (s := { s with kv := _ }) hb ha
      · have he : mayFlush s a force = s := by
          rw [mayFlush, hg]
          simp [hc]
        rw [he]
        refine ⟨rfl, rfl, rfl, rfl, fun _ _ => rfl, ?_, fun hb _ => hb⟩
        intro d' hd
        injection hd with hd2
        injection hd2 with hd3
        subst hd3
        exact ⟨d, hg, rfl, rfl, rfl⟩

theorem storeReverseDiffM_ok (s : St) (pr : Hash) (bottom : DiffRec) (hok : freezerOk s) :
    ∃ s2, storeReverseDiffM s pr bottom = (s2, .ok ()) ∧ s2.heap = s.heap ∧
      s2.next = s.next ∧ s2.layers = s.layers ∧ s2.kv = s.kv ∧
      s2.stateFreezer = s.stateFreezer ∧ s2.statelimit = s.statelimit ∧
      s2.dirtyCap = s.dirtyCap ∧ freezerOk s2 := by
  cases hf : s.freezer with
  | none =>
    refine ⟨s, ?_, rfl, rfl, rfl, rfl, rfl, rfl, rfl, hok⟩
    rw [storeReverseDiffM, hf]
  | some fz =>
    have hb : fz.broken = false := hok fz hf
    rw [storeReverseDiffM, hf]
    simp only [hb, Bool.false_eq_true, if_false]
    refine ⟨_, rfl, rfl, rfl, rfl, rfl, rfl, rfl, rfl, ?_⟩
    intro f hf2
    simp only [Option.some.injEq] at hf2
    simp [← hf2, hb]

theorem storeStateHistoryM_frame (s : St) (bottom : DiffRec) :
    (storeStateHistoryM s bottom).heap = s.heap ∧
    (storeStateHistoryM s bottom).next = s.next ∧
    (storeStateHistoryM s bottom).layers = s.layers ∧
    (storeStateHistoryM s bottom).kv = s.kv ∧
    (storeStateHistoryM s bottom).freezer = s.freezer ∧
    (storeStateHistoryM s bottom).statelimit = s.statelimit ∧
    (storeStateHistoryM s bottom).dirtyCap = s.dirtyCap := by
  rw [storeStateHistoryM]
  cases hf : s.stateFreezer with
  | none => exact ⟨rfl, rfl, rfl, rfl, rfl, rfl, rfl⟩
  | some fz =>
    by_cases hb : fz.broken = true
    · simp [hb]
    · simp [hb]

theorem diskCommit_ok (s : St) (dlA : Addr) (dl : DiskRec) (bottom : DiffRec) (force : Bool)
    (hdl : heapGet s.heap dlA = some (.disk dl))
    (hok : freezerOk s) (hb : heapBounded s.heap s.next) :
    ∃ s9 nd,
      diskCommit s dlA dl bottom force = (s9, .ok s.next) ∧
      s9.next = s.next + 1 ∧ s9.layers = s.layers ∧ freezerOk s9 ∧
      heapBounded s9.heap s9.next ∧
      heapGet s9.heap s.next = some (.disk nd) ∧ nd.root = bottom.root ∧
      nd.diffid = bottom.diffid ∧ nd.stale = false ∧
      heapGet s9.heap dlA = some (.disk { dl with stale := true }) ∧
      (∀ x, x ≠ dlA → x ≠ s.next → heapGet s9.heap x = heapGet s.heap x) := by
  have hset : setStale s dlA = setLayer s dlA (.disk { dl with stale := true }) := by
    rw [setStale, hdl]
  have hok1 : freezerOk (setLayer s dlA (.disk { dl with stale := true })) :=
    fun f hf => hok f hf
  obtain ⟨s2, hst, hheap2, hnext2, hlayers2, hkv2, hsf2, hsl2, hdc2, hok2⟩ :=
    storeReverseDiffM_ok (setLayer s dlA (.disk { dl with stale := true })) dl.root bottom hok1
  obtain ⟨h3heap, h3next, h3layers, h3kv, h3fz, h3sl, h3dc⟩ :=
    storeStateHistoryM_frame s2 bottom
  have hdlA_lt : dlA < s.next := heapGet_lt_of_bounded hb hdl
  have hb1 : heapBounded (setLayer s dlA (.disk { dl with stale := true })).heap s.next :=
    heapBounded_setLayer hb hdlA_lt
  have h3next' : (storeStateHistoryM s2 bottom).next = s.next := by
    rw [h3next, hnext2]; rfl
  have hb3 : heapBounded (storeStateHistoryM s2 bottom).heap
      (storeStateHistoryM s2 bottom).next := by
    rw [h3heap, hheap2, h3next']
    exact hb1
  obtain ⟨ha2, hanext, halayers, hakv, hafz, hasf, haget, haframe, habound⟩ :=
    allocLayer_spec (storeStateHistoryM s2 bottom)
      (.disk ⟨bottom.root, bottom.diffid, dl.clean,
        diskcacheCommit dl.dirty (slimOf bottom.nodes), false⟩) hb3
  obtain ⟨hfnext, hflayers, hffz, hfsf, hfframe, hfdisk, hfbound⟩ :=
    mayFlush_spec (allocLayer (storeStateHistoryM s2 bottom)
      (.disk ⟨bottom.root, bottom.diffid, dl.clean,
        diskcacheCommit dl.dirty (slimOf bottom.nodes), false⟩)).1
      (allocLayer (storeStateHistoryM s2 bottom)
        (.disk ⟨bottom.root, bottom.diffid, dl.clean,
          diskcacheCommit dl.dirty (slimOf bottom.nodes), false⟩)).2 force
  have heq : diskCommit s dlA dl bottom force =
      (mayFlush (allocLayer (storeStateHistoryM s2 bottom)
          (.disk ⟨bottom.root, bottom.diffid, dl.clean,
            diskcacheCommit dl.dirty (slimOf bottom.nodes), false⟩)).1
        (allocLayer (storeStateHistoryM s2 bottom)
          (.disk ⟨bottom.root, bottom.diffid, dl.clean,
            diskcacheCommit dl.dirty (slimOf bottom.nodes), false⟩)).2 force,
        .ok (allocLayer (storeStateHistoryM s2 bottom)
          (.disk ⟨bottom.root, bottom.diffid, dl.clean,
            diskcacheCommit dl.dirty (slimOf bottom.nodes), false⟩)).2) := by
    simp only [diskCommit]
    rw [hset, hst]
  set S3 := storeStateHistoryM s2 bottom with hS3def
  set L : LayerRec := LayerRec.disk ⟨bottom.root, bottom.diffid, dl.clean,
    diskcacheCommit dl.dirty (slimOf bottom.nodes), false⟩ with hLdef
  set R := allocLayer S3 L with hRdef
  set S9 := mayFlush R.1 R.2 force with hS9def
  have hA : R.2 = s.next := ha2.trans h3next'
  have hR1next : R.1.next = s.next + 1 := by rw [hanext, h3next']
  have hlayseq : s2.layers = s.layers := by rw [hlayers2]; rfl
  have hgetR : heapGet R.1.heap R.2 = some L := by rw [ha2]; exact haget
  rw [hLdef] at hgetR
  obtain ⟨nd, hnd, hndroot, hndid, hndstale⟩ :=
    hfdisk ⟨bottom.root, bottom.diffid, dl.clean,
      diskcacheCommit dl.dirty (slimOf bottom.nodes), false⟩ hgetR
  have hdlA_ne : dlA ≠ s.next := Nat.ne_of_lt hdlA_lt
  refine ⟨S9, nd, ?_, ?_, ?_, ?_, ?_, ?_, hndroot, hndid, hndstale, ?_, ?_⟩
  · rw [heq, hA]
  · rw [hfnext, hR1next]
  · rw [hflayers, halayers, h3layers, hlayseq]
  · intro f hf
    apply hok2 f
    rw [← h3fz, ← hafz, ← hffz]
    exact hf
  · rw [hfnext]
    refine hfbound ?_ ?_
    · rw [hanext]
      exact habound
    · rw [hA, hR1next]
      exact Nat.lt_succ_self s.next
  · rw [← hA]
    exact hnd
  · rw [hfframe dlA (by rw [hA]; exact hdlA_ne),
      haframe dlA (by rw [h3next']; exact hdlA_ne), h3heap, hheap2]
    exact heapGet_setLayer_self s dlA _
  · intro x hx1 hx2
    rw [hfframe x (by rw [hA]; exact hx2), haframe x (by rw [h3next']; exact hx2),
      h3heap, hheap2, heapGet_setLayer_ne s dlA _ x hx1]

/-! ### Parent chains -/

/-- The parent chain from an address down to (and including) the disk
layer, or `none` when the fuel runs out or the chain dangles. -/
def chainList (h : List (Addr × LayerRec)) : Nat → Addr → Option (List Addr)
  | 0, _ => none
  | fuel + 1, a =>
    match heapGet h a with
    | some (.disk _) => some [a]
    | some (.diff d) => (chainList h fuel d.parent).map (fun c => a :: c)
    | none => none

theorem chainList_mono {h : List (Addr × LayerRec)} :
    ∀ {f f' : Nat} {a : Addr} {C : List Addr},
      chainList h f a = some C → f ≤ f' → chainList h f' a = some C := by
  intro f
  induction f with
  | zero => intro f' a C hc; simp [chainList] at hc
  | succ f ih =>
    intro f' a C hc hle
    obtain ⟨f'', rfl⟩ : ∃ f'', f' = f'' + 1 := ⟨f' - 1, by omega⟩
    rw [chainList] at hc ⊢
    cases hg : heapGet h a with
    | none => rw [hg] at hc; cases hc
    | some l =>
      rw [hg] at hc
      cases l with
      | disk d => exact hc
      | diff d =>
        have hc' : (chainList h f d.parent).map (fun c => a :: c) = some C := hc
        show (chainList h f'' d.parent).map (fun c => a :: c) = some C
        cases hc2 : chainList h f d.parent with
        | none => rw [hc2] at hc'; cases hc'
        | some C2 =>
          rw [hc2] at hc'
          rw [ih hc2 (by omega)]
          exact hc'

theorem chainList_mem_heap {h : List (Addr × LayerRec)} :
    ∀ {f : Nat} {a : Addr} {C : List Addr},
      chainList h f a = some C → ∀ x ∈ C, ∃ l, heapGet h x = some l := by
  intro f
  induction f with
  | zero => intro a C hc; simp [chainList] at hc
  | succ f ih =>
    intro a C hc x hx
    rw [chainList] at hc
    cases hg : heapGet h a with
    | none => rw [hg] at hc; cases hc
    | some l =>
      rw [hg] at hc
      cases l with
      | disk d =>
        have hc' : some [a] = some C := hc
        injection hc' with hc'
        subst hc'
        simp at hx
        subst hx
        exact ⟨_, hg⟩
      | diff d =>
        have hc' : (chainList h f d.parent).map (fun c => a :: c) = some C := hc
        cases hc2 : chainList h f d.parent with
        | none => rw [hc2] at hc'; cases hc'
        | some C2 =>
          rw [hc2] at hc'
          simp only [Option.map_some'] at hc'
          injection hc' with hc'
          subst hc'
          rcases List.mem_cons.mp hx with rfl | hx
          · exact ⟨_, hg⟩
          · exact ih hc2 x hx

theorem chainList_head {h : List (Addr × LayerRec)} {f : Nat} {x : Addr} {L : List Addr}
    (hc : chainList h f x = some L) : ∃ t, L = x :: t := by
  cases f with
  | zero => simp [chainList] at hc
  | succ f =>
    rw [chainList] at hc
    cases hg : heapGet h x with
    | none => rw [hg] at hc; cases hc
    | some l =>
      rw [hg] at hc
      cases l with
      | disk d =>
        have hc' : some [x] = some L := hc
        injection hc' with hc'
        exact ⟨[], hc'.symm⟩
      | diff d =>
        have hc' : (chainList h f d.parent).map (fun c => x :: c) = some L := hc
        cases hc2 : chainList h f d.parent with
        | none => rw [hc2] at hc'; cases hc'
        | some C2 =>
          rw [hc2] at hc'
          simp only [Option.map_some'] at hc'
          injection hc' with hc'
          exact ⟨C2, hc'.symm⟩

theorem persist_spec : ∀ (fuel : Nat) (s : St) (a : Addr) (C : List Addr) (d : DiffRec)
    (force : Bool),
    chainList s.heap fuel a = some (a :: C) →
    (a :: C).Nodup →
    heapGet s.heap a = some (.diff d) →
    heapBounded s.heap s.next →
    freezerOk s →
    ∃ s2 b nd,
      persist fuel s a force = (s2, .ok b) ∧
      heapGet s2.heap b = some (.disk nd) ∧
      nd.root = d.root ∧ nd.diffid = d.diffid ∧ nd.stale = false ∧
      s2.layers = s.layers ∧
      s.next ≤ b ∧ b < s2.next ∧
      heapBounded s2.heap s2.next ∧ freezerOk s2 ∧
      (∀ x, x ∉ a :: C → x < s.next → heapGet s2.heap x = heapGet s.heap x) ∧
      (∀ x ∈ a :: C, ∀ dx : DiffRec, heapGet s.heap x = some (.diff dx) →
        ∃ p2 ndx pl, heapGet s2.heap x = some (.diff { dx with parent := p2 }) ∧
          heapGet s2.heap p2 = some (.disk ndx) ∧
          heapGet s.heap dx.parent = some pl ∧ ndx.root = pl.root ∧
          (p2 = dx.parent ∨ (s.next ≤ p2 ∧ p2 < s2.next))) ∧
      (∀ x ∈ a :: C, ∀ dx : DiskRec, heapGet s.heap x = some (.disk dx) →
        heapGet s2.heap x = some (.disk { dx with stale := true })) := by
  intro fuel
  induction fuel with
  | zero =>
    intro s a C d force hc
    simp [chainList] at hc
  | succ fuel ih =>
    intro s a C d force hc hnd ha hb hok
    rw [chainList] at hc
    have hc' : (chainList s.heap fuel d.parent).map (fun c => a :: c) = some (a :: C) := by
      rw [ha] at hc; exact hc
    cases hcp : chainList s.heap fuel d.parent with
    | none => rw [hcp] at hc'; cases hc'
    | some C2 =>
      rw [hcp] at hc'
      simp only [Option.map_some', Option.some.injEq, List.cons.injEq, true_and] at hc'
      subst hc'
      have haLt : a < s.next := heapGet_lt_of_bounded hb ha
      cases hgp : heapGet s.heap d.parent with
      | none =>
        exfalso
        cases fuel with
        | zero => simp [chainList] at hcp
        | succ f2 => rw [chainList, hgp] at hcp; cases hcp
      | some pl =>
        cases pl with
        | disk pd =>
          have hC2 : C2 = [d.parent] := by
            cases fuel with
            | zero => simp [chainList] at hcp
            | succ f2 =>
              rw [chainList, hgp] at hcp
              have hcp' : some [d.parent] = some C2 := hcp
              injection hcp' with hcp'
              exact hcp'.symm
          subst hC2
          have hane : a ≠ d.parent := by
            intro habs
            rw [habs, hgp] at ha
            cases ha
          have hpLt : d.parent < s.next := heapGet_lt_of_bounded hb hgp
          have hpeq : persist (fuel + 1) s a force = diffToDisk s a force := by
            simp only [persist, ha, hgp]
          have hdeq : diffToDisk s a force = diskCommit s d.parent pd d force := by
            simp only [diffToDisk, ha, hgp]
          obtain ⟨s9, nd, hceq, hnext9, hlayers9, hok9, hbound9, hget9, hroot9, hid9,
            hstale9, hold9, hframe9⟩ := diskCommit_ok s d.parent pd d force hgp hok hb
          refine ⟨s9, s.next, nd, ?_, hget9, hroot9, hid9, hstale9, hlayers9,
            le_refl _, ?_, ?_, hok9, ?_, ?_, ?_⟩
          · rw [hpeq, hdeq, hceq]
          · rw [hnext9]; exact Nat.lt_succ_self _
          · exact hbound9
          · intro x hx hxlt
            have hx2 : x ≠ d.parent := fun h => hx (by simp [h])
            exact hframe9 x hx2 (Nat.ne_of_lt hxlt)
          · intro x hx dx hdx
            rcases List.mem_cons.mp hx with h | hx
            · subst h
              rw [ha] at hdx
              injection hdx with hdx
              injection hdx with hdx
              subst hdx
              refine ⟨d.parent, { pd with stale := true }, .disk pd, ?_, hold9, hgp,
                rfl, Or.inl rfl⟩
              rw [hframe9 x hane (Nat.ne_of_lt haLt)]
              exact ha
            · simp only [List.mem_singleton] at hx
              subst hx
              rw [hgp] at hdx
              cases hdx
          · intro x hx dx hdx
            rcases List.mem_cons.mp hx with h | hx
            · subst h
              rw [ha] at hdx
              cases hdx
            · simp only [List.mem_singleton] at hx
              subst hx
              rw [hgp] at hdx
              injection hdx with hdx
              injection hdx with hdx
              subst hdx
              exact hold9
        | diff pd =>
          obtain ⟨C3, rfl⟩ := chainList_head hcp
          have hnd2 : (d.parent :: C3).Nodup := (List.nodup_cons.mp hnd).2
          have hanotin : a ∉ d.parent :: C3 := (List.nodup_cons.mp hnd).1
          obtain ⟨s1, b1, nd1, hpeq1, hget1, hroot1, hid1, hstale1, hlayers1, hble1,
            hblt1, hbound1, hok1, hframe1, hdiff1, hdisk1⟩ :=
            ih s d.parent C3 pd force hcp hnd2 hgp hb hok
          have hfra : heapGet s1.heap a = heapGet s.heap a := hframe1 a hanotin haLt
          have hpeq : persist (fuel + 1) s a force =
              diffToDisk (setParent s1 a b1) a force := by
            simp only [persist, ha, hgp, hpeq1]
          have hsp : setParent s1 a b1 =
              setLayer s1 a (.diff { d with parent := b1 }) := by
            rw [setParent, hfra, ha]
          have hb1gt : a < b1 := lt_of_lt_of_le haLt hble1
          have hb1ne : b1 ≠ a := Nat.ne_of_gt hb1gt
          have hS4a : heapGet (setLayer s1 a (.diff { d with parent := b1 })).heap a =
              some (.diff { d with parent := b1 }) := heapGet_setLayer_self _ _ _
          have hS4b1 : heapGet (setLayer s1 a (.diff { d with parent := b1 })).heap b1 =
              some (.disk nd1) := by
            rw [heapGet_setLayer_ne s1 a _ b1 hb1ne]
            exact hget1
          have hdeq : diffToDisk (setLayer s1 a (.diff { d with parent := b1 })) a force =
              diskCommit (setLayer s1 a (.diff { d with parent := b1 })) b1 nd1
                { d with parent := b1 } force := by
            simp only [diffToDisk, hS4a, hS4b1]
          have hok4 : freezerOk (setLayer s1 a (.diff { d with parent := b1 })) :=
            fun f hf => hok1 f hf
          have haltnext1 : a < s1.next := lt_trans hb1gt hblt1
          have hbound4 : heapBounded (setLayer s1 a (.diff { d with parent := b1 })).heap
              (setLayer s1 a (.diff { d with parent := b1 })).next :=
            heapBounded_setLayer hbound1 haltnext1
          obtain ⟨s9, nd, hceq, hnext9, hlayers9, hok9, hbound9, hget9, hroot9, hid9,
            hstale9, hold9, hframe9⟩ :=
            diskCommit_ok (setLayer s1 a (.diff { d with parent := b1 })) b1 nd1
              { d with parent := b1 } force hS4b1 hok4 hbound4
          have hnext4 : (setLayer s1 a (.diff { d with parent := b1 })).next = s1.next := rfl
          rw [hnext4] at hceq hnext9 hget9 hframe9
          have hsnle1 : s.next ≤ s1.next := le_of_lt (lt_of_le_of_lt hble1 hblt1)
          refine ⟨s9, s1.next, nd, ?_, hget9, hroot9, hid9, hstale9, ?_, hsnle1, ?_,
            hbound9, hok9, ?_, ?_, ?_⟩
          · rw [hpeq, hsp, hdeq]
            exact hceq
          · rw [hlayers9]
            exact hlayers1
          · rw [hnext9]
            exact Nat.lt_succ_self _
          · intro x hx hxlt
            have hxa : x ≠ a := fun h => hx (h ▸ List.mem_cons_self _ _)
            have hxb1 : x ≠ b1 := Nat.ne_of_lt (lt_of_lt_of_le hxlt hble1)
            have hxn1 : x ≠ s1.next := Nat.ne_of_lt (lt_of_lt_of_le hxlt hsnle1)
            rw [hframe9 x hxb1 hxn1, heapGet_setLayer_ne s1 a _ x hxa,
              hframe1 x (fun h => hx (List.mem_cons_of_mem _ h)) hxlt]
          · intro x hx dx hdx
            rcases List.mem_cons.mp hx with h | hx
            · subst h
              rw [ha] at hdx
              injection hdx with hdx
              injection hdx with hdx
              subst hdx
              have hanb1 : x ≠ b1 := Nat.ne_of_lt hb1gt
              have hann1 : x ≠ s1.next := Nat.ne_of_lt haltnext1
              refine ⟨b1, { nd1 with stale := true }, .diff pd, ?_, hold9, hgp, ?_, ?_⟩
              · rw [hframe9 x hanb1 hann1]
                exact hS4a
              · exact hroot1
              · right
                refine ⟨hble1, ?_⟩
                rw [hnext9]
                exact Nat.lt_succ_of_lt hblt1
            · have hxlt : x < s.next := by
                have := heapGet_lt_of_bounded hb hdx
                exact this
              have hxa : x ≠ a := fun h => hanotin (h ▸ hx)
              have hxb1 : x ≠ b1 := Nat.ne_of_lt (lt_of_lt_of_le hxlt hble1)
              have hxn1 : x ≠ s1.next := Nat.ne_of_lt (lt_of_lt_of_le hxlt hsnle1)
              obtain ⟨p2, ndx, pl, h1, h2, h3, h4, h5⟩ := hdiff1 x hx dx hdx
              have h1' : heapGet s9.heap x = some (.diff { dx with parent := p2 }) := by
                rw [hframe9 x hxb1 hxn1, heapGet_setLayer_ne s1 a _ x hxa]
                exact h1
              have hp2lt1 : p2 < s1.next := by
                rcases h5 with h5 | h5
                · rw [h5]
                  exact lt_of_lt_of_le (heapGet_lt_of_bounded hb h3) hsnle1
                · exact h5.2
              have hp2n1 : p2 ≠ s1.next := Nat.ne_of_lt hp2lt1
              by_cases hp2b : p2 = b1
              · subst hp2b
                rw [hget1] at h2
                injection h2 with h2
                injection h2 with h2
                subst h2
                refine ⟨p2, { nd1 with stale := true }, pl, h1', hold9, h3, h4, ?_⟩
                right
                refine ⟨hble1, ?_⟩
                rw [hnext9]
                exact Nat.lt_succ_of_lt hblt1
              · have hp2a : p2 ≠ a := by
                  intro habs
                  rw [habs, hfra, ha] at h2
                  cases h2
                have h2' : heapGet s9.heap p2 = some (.disk ndx) := by
                  rw [hframe9 p2 hp2b hp2n1, heapGet_setLayer_ne s1 a _ p2 hp2a]
                  exact h2
                refine ⟨p2, ndx, pl, h1', h2', h3, h4, ?_⟩
                rcases h5 with h5 | h5
                · exact Or.inl h5
                · right
                  refine ⟨h5.1, ?_⟩
                  rw [hnext9]
                  exact Nat.lt_succ_of_lt h5.2
          · intro x hx dx hdx
            rcases List.mem_cons.mp hx with h | hx
            · subst h
              rw [ha] at hdx
              cases hdx
            · have hxlt : x < s.next := heapGet_lt_of_bounded hb hdx
              have hxa : x ≠ a := fun h => hanotin (h ▸ hx)
              have hxb1 : x ≠ b1 := Nat.ne_of_lt (lt_of_lt_of_le hxlt hble1)
              have hxn1 : x ≠ s1.next := Nat.ne_of_lt (lt_of_lt_of_le hxlt hsnle1)
              rw [hframe9 x hxb1 hxn1, heapGet_setLayer_ne s1 a _ x hxa]
              exact hdisk1 x hx dx hdx

/-! ### The layer-tree invariant under Update -/

theorem alistGet_append_of_some {κ α : Type} [DecidableEq κ] {m : List (κ × α)} {k : κ}
    {v : α} (h : alistGet m k = some v) (m2 : List (κ × α)) :
    alistGet (m ++ m2) k = some v := by
  induction m with
  | nil => simp [alistGet] at h
  | cons hd tl ih =>
    obtain ⟨k', v'⟩ := hd
    by_cases hk : k' = k
    · subst hk
      rw [List.cons_append]
      simp only [alistGet_cons, if_pos rfl] at h ⊢
      exact h
    · rw [List.cons_append]
      simp only [alistGet_cons, hk, if_false] at h ⊢
      exact ih h

theorem chainList_extend {h : List (Addr × LayerRec)} {n : Addr} (l : LayerRec) :
    ∀ {f : Nat} {a : Addr} {C : List Addr},
      chainList h f a = some C → chainList (h ++ [(n, l)]) f a = some C := by
  intro f
  induction f with
  | zero => intro a C hc; simp [chainList] at hc
  | succ f ih =>
    intro a C hc
    rw [chainList] at hc ⊢
    cases hg : heapGet h a with
    | none => rw [hg] at hc; cases hc
    | some la =>
      rw [hg] at hc
      have hg2 : heapGet (h ++ [(n, l)]) a = some la := alistGet_append_of_some hg _
      rw [hg2]
      cases la with
      | disk d => exact hc
      | diff d =>
        have hc' : (chainList h f d.parent).map (fun c => a :: c) = some C := hc
        show (chainList (h ++ [(n, l)]) f d.parent).map (fun c => a :: c) = some C
        cases hc2 : chainList h f d.parent with
        | none => rw [hc2] at hc'; cases hc'
        | some C2 =>
          rw [hc2] at hc'
          rw [ih hc2]
          exact hc'

/-- Well-formedness of the database state: heap addresses are below the
allocation counter, and every indexed layer exists, is indexed by its own
root and has an acyclic parent chain down to a disk layer. -/
def TreeInv (s : St) : Prop :=
  heapBounded s.heap s.next ∧
  ∀ r a, alistGet s.layers r = some a →
    ∃ l C, heapGet s.heap a = some l ∧ l.root = r ∧
      chainList s.heap s.next a = some C ∧ C.Nodup

theorem treeAdd_ok_spec (s : St) (root parentRoot : Hash) (nodes : NodeMap)
    (h : (treeAdd s root parentRoot nodes).2 = .ok ()) :
    ∃ pa pl,
      alistGet s.layers (convertEmpty parentRoot) = some pa ∧
      heapGet s.heap pa = some pl ∧
      (treeAdd s root parentRoot nodes).1 =
        { s with
          heap := s.heap ++
            [(s.next, .diff ⟨convertEmpty root, pl.diffid + 1, nodes, pa, false⟩)],
          next := s.next + 1,
          layers := alistSet s.layers (convertEmpty root) s.next } := by
  by_cases hcy : convertEmpty root = convertEmpty parentRoot
  · rw [treeAdd] at h
    simp only [hcy, if_pos rfl] at h
    cases h
  · cases hpa : alistGet s.layers (convertEmpty parentRoot) with
    | none =>
      rw [treeAdd] at h
      simp only [hcy, if_false, hpa] at h
      cases h
    | some pa =>
      cases hpl : heapGet s.heap pa with
      | none =>
        rw [treeAdd] at h
        simp only [hcy, if_false, hpa, hpl] at h
        cases h
      | some pl =>
        refine ⟨pa, pl, rfl, hpl, ?_⟩
        rw [treeAdd]
        simp only [hcy, if_false, hpa, hpl, allocLayer]

theorem treeAdd_inv (s : St) (root parentRoot : Hash) (nodes : NodeMap)
    (hinv : TreeInv s) (h : (treeAdd s root parentRoot nodes).2 = .ok ()) :
    TreeInv (treeAdd s root parentRoot nodes).1 ∧
    (treeAdd s root parentRoot nodes).1.freezer = s.freezer ∧
    alistGet (treeAdd s root parentRoot nodes).1.layers (convertEmpty root) = some s.next ∧
    (∃ dd : DiffRec,
      heapGet (treeAdd s root parentRoot nodes).1.heap s.next = some (.diff dd) ∧
      dd.root = convertEmpty root) := by
  obtain ⟨hb, hent⟩ := hinv
  obtain ⟨pa, pl, hpa, hpl, heq⟩ := treeAdd_ok_spec s root parentRoot nodes h
  rw [heq]
  have hfresh : ∀ p ∈ s.heap, p.1 ≠ s.next := fun p hp => Nat.ne_of_lt (hb p hp)
  have hgetNew : heapGet (s.heap ++
      [(s.next, .diff ⟨convertEmpty root, pl.diffid + 1, nodes, pa, false⟩)]) s.next =
      some (.diff ⟨convertEmpty root, pl.diffid + 1, nodes, pa, false⟩) :=
    alistGet_append_new _ _ _ hfresh
  refine ⟨⟨?_, ?_⟩, rfl, ?_, ?_⟩
  · intro p hp
    rcases List.mem_append.mp hp with hp | hp
    · exact Nat.lt_succ_of_lt (hb p hp)
    · simp at hp
      simp [hp]
  · intro r a ha
    by_cases hr : convertEmpty root = r
    · subst hr
      rw [alistGet_set_self] at ha
      injection ha with ha
      subst ha
      obtain ⟨plx, Cp, hplx, hrootp, hchainp, hndp⟩ := hent _ _ hpa
      have hchainp' := @chainList_extend s.heap s.next
        (.diff ⟨convertEmpty root, pl.diffid + 1, nodes, pa, false⟩) s.next pa Cp hchainp
      refine ⟨.diff ⟨convertEmpty root, pl.diffid + 1, nodes, pa, false⟩,
        s.next :: Cp, hgetNew, rfl, ?_, ?_⟩
      · show chainList _ (s.next + 1) s.next = _
        rw [chainList, hgetNew]
        show (chainList _ s.next pa).map (fun c => s.next :: c) = _
        rw [hchainp']
        rfl
      · refine List.nodup_cons.mpr ⟨?_, hndp⟩
        intro habs
        obtain ⟨lx, hlx⟩ := chainList_mem_heap hchainp s.next habs
        exact absurd (heapGet_lt_of_bounded hb hlx) (lt_irrefl _)
    · rw [alistGet_set_ne _ _ _ _ (fun hh => hr hh)] at ha
      obtain ⟨l, C, hl, hroot, hchain, hnd⟩ := hent r a ha
      refine ⟨l, C, alistGet_append_of_some hl _, hroot, ?_, hnd⟩
      exact chainList_mono (chainList_extend _ hchain) (Nat.le_succ _)
  · exact alistGet_set_self _ _ _
  · exact ⟨⟨convertEmpty root, pl.diffid + 1, nodes, pa, false⟩, hgetNew, rfl⟩

/-- A sequence of `Update` operations applied through `layerTree.add`,
stopping at the first failure. -/
def applyAdds (s : St) : List (Hash × Hash × NodeMap) → St × Bool
  | [] => (s, true)
  | op :: rest =>
    match treeAdd s op.1 op.2.1 op.2.2 with
    | (s1, .ok _) => applyAdds s1 rest
    | (s1, .error _) => (s1, false)

theorem applyAdds_append_ok (ops : List (Hash × Hash × NodeMap))
    (u : Hash × Hash × NodeMap) : ∀ (s : St),
    (applyAdds s (ops ++ [u])).2 = true →
    (applyAdds s ops).2 = true ∧
    (treeAdd (applyAdds s ops).1 u.1 u.2.1 u.2.2).2 = .ok () ∧
    (applyAdds s (ops ++ [u])).1 = (treeAdd (applyAdds s ops).1 u.1 u.2.1 u.2.2).1 := by
  induction ops with
  | nil =>
    intro s h
    have h2 : (applyAdds s [u]).2 = true := h
    cases ht : treeAdd s u.1 u.2.1 u.2.2 with
    | mk s1 r =>
      cases r with
      | ok v =>
        cases v
        have he : applyAdds s [u] = (s1, true) := by
          simp only [applyAdds]
          rw [ht]
        refine ⟨rfl, ?_, ?_⟩
        · show (treeAdd s u.1 u.2.1 u.2.2).2 = .ok ()
          rw [ht]
        · show (applyAdds s [u]).1 = (treeAdd s u.1 u.2.1 u.2.2).1
          rw [he, ht]
      | error e =>
        have he : applyAdds s [u] = (s1, false) := by
          simp only [applyAdds]
          rw [ht]
        rw [he] at h2
        simp at h2
  | cons op rest ih =>
    intro s h
    have h2 : (applyAdds s (op :: (rest ++ [u]))).2 = true := h
    cases ht : treeAdd s op.1 op.2.1 op.2.2 with
    | mk s1 r =>
      cases r with
      | ok v =>
        cases v
        have he1 : applyAdds s (op :: rest) = applyAdds s1 rest := by
          simp only [applyAdds]
          rw [ht]
        have he2 : applyAdds s (op :: (rest ++ [u])) = applyAdds s1 (rest ++ [u]) := by
          simp only [applyAdds]
          rw [ht]
        rw [he2] at h2
        obtain ⟨ha, hb, hc⟩ := ih s1 h2
        refine ⟨?_, ?_, ?_⟩
        · rw [he1]
          exact ha
        · rw [he1]
          exact hb
        · show (applyAdds s (op :: (rest ++ [u]))).1 = _
          rw [he2, he1]
          exact hc
      | error e =>
        have he2 : applyAdds s (op :: (rest ++ [u])) = (s1, false) := by
          simp only [applyAdds]
          rw [ht]
        rw [he2] at h2
        simp at h2

theorem applyAdds_inv (ops : List (Hash × Hash × NodeMap)) : ∀ (s : St),
    TreeInv s → (applyAdds s ops).2 = true →
    TreeInv (applyAdds s ops).1 ∧ (applyAdds s ops).1.freezer = s.freezer := by
  induction ops with
  | nil => intro s hinv _; exact ⟨hinv, rfl⟩
  | cons op rest ih =>
    intro s hinv h
    rw [applyAdds] at h ⊢
    cases ht : treeAdd s op.1 op.2.1 op.2.2 with
    | mk s1 r =>
      cases r with
      | ok v =>
        cases v
        rw [ht] at h
        have h2 : (treeAdd s op.1 op.2.1 op.2.2).2 = .ok () := by rw [ht]
        obtain ⟨hinv1, hfz1, _, _⟩ := treeAdd_inv s op.1 op.2.1 op.2.2 hinv h2
        rw [ht] at hinv1 hfz1
        obtain ⟨ha, hb⟩ := ih s1 hinv1 h
        exact ⟨ha, hb.trans hfz1⟩
      | error e =>
        rw [ht] at h
        simp at h

/-- C1: starting from any well-formed tree, after a run of successful
`layerTree.add` calls ending with an update for root `u.1`, `cap (u.1) 0`
(the `Commit` path) succeeds and the tree afterwards holds exactly one
layer: a disk layer whose root is `u.1`. -/
theorem c1_cap_zero_flattens (s0 : St) (ops : List (Hash × Hash × NodeMap))
    (u : Hash × Hash × NodeMap)
    (hinv : TreeInv s0) (hfz : freezerOk s0) (hroot : u.1 ≠ 0)
    (hok : (applyAdds s0 (ops ++ [u])).2 = true) :
    ∃ s2 b nd,
      cap (applyAdds s0 (ops ++ [u])).1 u.1 0 = (s2, .ok ()) ∧
      s2.layers = [(u.1, b)] ∧
      heapGet s2.heap b = some (.disk nd) ∧
      nd.root = u.1 ∧ nd.stale = false := by
  obtain ⟨hops, hstep, heqN⟩ := applyAdds_append_ok ops u s0 hok
  obtain ⟨hinvM, hfzM⟩ := applyAdds_inv ops s0 hinv hops
  have hfzM' : freezerOk (applyAdds s0 ops).1 := by
    intro fz hfz2
    exact hfz fz (hfzM ▸ hfz2)
  obtain ⟨hinvN, hfzN, hgetRoot, dd, hdd, hddroot⟩ :=
    treeAdd_inv (applyAdds s0 ops).1 u.1 u.2.1 u.2.2 hinvM hstep
  rw [heqN]
  have hfzN' : freezerOk (treeAdd (applyAdds s0 ops).1 u.1 u.2.1 u.2.2).1 := by
    intro fz hfz2
    exact hfzM' fz (hfzN ▸ hfz2)
  obtain ⟨hbN, hentN⟩ := hinvN
  obtain ⟨l, C', hl, hlroot, hchain, hndp⟩ := hentN _ _ hgetRoot
  obtain ⟨t, rfl⟩ := chainList_head hchain
  have hchain' := chainList_mono hchain
    (Nat.le_succ (treeAdd (applyAdds s0 ops).1 u.1 u.2.1 u.2.2).1.next)
  obtain ⟨s2, b, nd, hpersist, hgetB, hndroot, hnddiffid, hndstale, hlayers,
      hble, hblt, hb2, hfz2, hframe, hchaindiff, hchaindisk⟩ :=
    persist_spec _ _ _ t dd true hchain' hndp hdd hbN hfzN'
  have hcu : convertEmpty u.1 = u.1 := by simp [convertEmpty, hroot]
  refine ⟨{ s2 with layers := [(nd.root, b)] }, b, nd, ?_, ?_, hgetB, ?_, hndstale⟩
  · simp only [cap, hgetRoot, hdd, hpersist, hgetB]
    rfl
  · show [(nd.root, b)] = [(u.1, b)]
    rw [hndroot, hddroot, hcu]
  · rw [hndroot, hddroot, hcu]

/-- A tree holding only its disk layer, root `4`, used to instantiate the
flattening theorem. -/
def c1state : St :=
  { heap := [(0, .disk ⟨4, 0, none, [], false⟩)], next := 1, layers := [(4, 0)],
    kv := ⟨[], 0⟩, freezer := none, stateFreezer := none, statelimit := 0, dirtyCap := 0 }

theorem c1_cap_zero_flattens_witness :
    TreeInv c1state ∧ freezerOk c1state ∧ ((9 : Hash) ≠ 0) ∧
    (applyAdds c1state ([] ++ [((9 : Hash), (4 : Hash), ([] : NodeMap))])).2 = true ∧
    (∃ s2 b nd,
      cap (applyAdds c1state ([] ++ [((9 : Hash), (4 : Hash), ([] : NodeMap))])).1 9 0
        = (s2, .ok ()) ∧
      s2.layers = [((9 : Hash), b)] ∧
      heapGet s2.heap b = some (.disk nd) ∧
      nd.root = 9 ∧ nd.stale = false) := by
  have hinv : TreeInv c1state := by
    refine ⟨?_, ?_⟩
    · intro p hp
      have hp' : p ∈ [((0 : Addr), LayerRec.disk ⟨4, 0, none, [], false⟩)] := hp
      rw [List.mem_singleton] at hp'
      subst hp'
      decide
    · intro r a ha
      by_cases h4 : (4 : Hash) = r
      · subst h4
        have ha' : some 0 = some a := ha
        injection ha' with ha'
        subst ha'
        exact ⟨.disk ⟨4, 0, none, [], false⟩, [0], rfl, rfl, rfl, by simp⟩
      · have ha' : (none : Option Addr) = some a := by
          have hr : alistGet c1state.layers r = (if (4 : Hash) = r then some 0 else none) := rfl
          rw [hr, if_neg h4] at ha
          exact ha
        cases ha'
  have hfz : freezerOk c1state := by
    intro fz h
    have h' : (none : Option Freezer) = some fz := h
    cases h'
  exact ⟨hinv, hfz, by decide, by decide,
    c1_cap_zero_flattens c1state [] ((9 : Hash), (4 : Hash), ([] : NodeMap))
      hinv hfz (by decide) (by decide)⟩

/-- A list of distinct naturals all below `n` has at most `n` elements. -/
theorem nodup_bounded_length_le (l : List Nat) (n : Nat) (hnd : l.Nodup)
    (hlt : ∀ x ∈ l, x < n) : l.length ≤ n := by
  have hsub : l.toFinset ⊆ Finset.range n := by
    intro x hx
    rw [List.mem_toFinset] at hx
    exact Finset.mem_range.mpr (hlt x hx)
  have hcard := Finset.card_le_card hsub
  rw [Finset.card_range, List.toFinset_card_of_nodup hnd] at hcard
  exact hcard

/-- Link predicate along a prospective chain: every listed address holds a
diff layer whose parent is the next listed address, the last one pointing
at `y`. -/
def diffChainTo (h : List (Addr × LayerRec)) : List Addr → Addr → Prop
  | [], _ => True
  | x :: rest, y =>
    ∃ dx : DiffRec, heapGet h x = some (.diff dx) ∧
      dx.parent = rest.headD y ∧ diffChainTo h rest y

/-- A failed dive (diff stack too shallow) bounds the whole chain length
by the requested depth. -/
theorem dive_none_bound {h : List (Addr × LayerRec)} :
    ∀ {i : Nat} {a : Addr} {d : DiffRec} {f : Nat} {C : List Addr},
      dive h i a d = none → heapGet h a = some (.diff d) →
      chainList h f a = some C → C.length ≤ i + 1 := by
  intro i
  induction i with
  | zero =>
    intro a d f C hdive _ _
    simp [dive] at hdive
  | succ i ih =>
    intro a d f C hdive ha hc
    cases f with
    | zero => simp [chainList] at hc
    | succ f =>
      rw [chainList] at hc
      have hc' : (chainList h f d.parent).map (fun c => a :: c) = some C := by
        rw [ha] at hc
        exact hc
      cases hc2 : chainList h f d.parent with
      | none => rw [hc2] at hc'; cases hc'
      | some C2 =>
        rw [hc2] at hc'
        simp only [Option.map_some'] at hc'
        injection hc' with hc'
        subst hc'
        cases hp : heapGet h d.parent with
        | none =>
          exfalso
          cases f with
          | zero => simp [chainList] at hc2
          | succ f2 => rw [chainList, hp] at hc2; cases hc2
        | some pl =>
          cases pl with
          | disk pdk =>
            have hC2 : C2 = [d.parent] := by
              cases f with
              | zero => simp [chainList] at hc2
              | succ f2 =>
                rw [chainList, hp] at hc2
                have hc3 : some [d.parent] = some C2 := hc2
                injection hc3 with hc3
                exact hc3.symm
            subst hC2
            simp only [List.length_cons, List.length_nil]
            omega
          | diff pd =>
            have hdive' : dive h i d.parent pd = none := by
              rw [dive, hp] at hdive
              exact hdive
            have := ih hdive' hp hc2
            simp only [List.length_cons]
            omega

/-- A successful dive splits the chain: a linked run of `i + 1` diffs from
the requested layer down to the landing layer, followed by the chain of the
landing layer's parent. -/
theorem dive_spec {h : List (Addr × LayerRec)} :
    ∀ {i : Nat} {a la : Addr} {d ld : DiffRec} {f : Nat} {C : List Addr},
      dive h i a d = some (la, ld) →
      heapGet h a = some (.diff d) →
      chainList h f a = some C →
      ∃ M C2,
        C = (M ++ [la]) ++ C2 ∧ M.length = i ∧
        diffChainTo h (M ++ [la]) ld.parent ∧
        heapGet h la = some (.diff ld) ∧
        chainList h f ld.parent = some C2 := by
  intro i
  induction i with
  | zero =>
    intro a la d ld f C hdive ha hc
    have hdive' : some (a, d) = some (la, ld) := hdive
    injection hdive' with hdive'
    injection hdive' with h1 h2
    subst h1
    subst h2
    cases f with
    | zero => simp [chainList] at hc
    | succ f =>
      rw [chainList] at hc
      have hc' : (chainList h f d.parent).map (fun c => a :: c) = some C := by
        rw [ha] at hc
        exact hc
      cases hc2 : chainList h f d.parent with
      | none => rw [hc2] at hc'; cases hc'
      | some C2 =>
        rw [hc2] at hc'
        simp only [Option.map_some'] at hc'
        injection hc' with hc'
        subst hc'
        refine ⟨[], C2, by simp, rfl, ?_, ha, chainList_mono hc2 (Nat.le_succ f)⟩
        exact ⟨d, ha, rfl, trivial⟩
  | succ i ih =>
    intro a la d ld f C hdive ha hc
    cases hp : heapGet h d.parent with
    | none =>
      exfalso
      rw [dive, hp] at hdive
      cases hdive
    | some pl =>
      cases pl with
      | disk pdk =>
        exfalso
        rw [dive, hp] at hdive
        cases hdive
      | diff pd =>
        have hdive' : dive h i d.parent pd = some (la, ld) := by
          rw [dive, hp] at hdive
          exact hdive
        cases f with
        | zero => simp [chainList] at hc
        | succ f =>
          rw [chainList] at hc
          have hc' : (chainList h f d.parent).map (fun c => a :: c) = some C := by
            rw [ha] at hc
            exact hc
          cases hc2 : chainList h f d.parent with
          | none => rw [hc2] at hc'; cases hc'
          | some C' =>
            rw [hc2] at hc'
            simp only [Option.map_some'] at hc'
            injection hc' with hc'
            subst hc'
            obtain ⟨M', C2, hCeq, hMlen, hchainTo, hla, hC2⟩ := ih hdive' hp hc2
            obtain ⟨t, hht⟩ := chainList_head hc2
            refine ⟨a :: M', C2, ?_, ?_, ?_, hla, chainList_mono hC2 (Nat.le_succ f)⟩
            · rw [hCeq]
              simp
            · simp [hMlen]
            · show ∃ dx : DiffRec, heapGet h a = some (.diff dx) ∧
                dx.parent = (M' ++ [la]).headD ld.parent ∧ diffChainTo h (M' ++ [la]) ld.parent
              refine ⟨d, ha, ?_, hchainTo⟩
              rw [hht] at hCeq
              cases M' with
              | nil =>
                have hCeq' : d.parent :: t = la :: C2 := hCeq
                injection hCeq'
              | cons m M'' =>
                have hCeq' : d.parent :: t = m :: ((M'' ++ [la]) ++ C2) := hCeq
                injection hCeq'

/-- Relinking the tail of a linked diff run onto a new target preserves
the links, provided the run's records survive in the new heap. -/
theorem diffChainTo_relink : ∀ (M : List Addr) (h h2 : List (Addr × LayerRec))
    (la b y : Addr) (ld : DiffRec),
    diffChainTo h (M ++ [la]) y →
    (∀ x ∈ M, heapGet h2 x = heapGet h x) →
    heapGet h2 la = some (.diff { ld with parent := b }) →
    diffChainTo h2 (M ++ [la]) b := by
  intro M
  induction M with
  | nil =>
    intro h h2 la b y ld _ _ hla2
    show ∃ dx : DiffRec, heapGet h2 la = some (.diff dx) ∧
      dx.parent = List.headD [] b ∧ diffChainTo h2 [] b
    exact ⟨{ ld with parent := b }, hla2, rfl, trivial⟩
  | cons m M ih =>
    intro h h2 la b y ld hdc hframe hla2
    have hdc' : ∃ dm : DiffRec, heapGet h m = some (.diff dm) ∧
        dm.parent = (M ++ [la]).headD y ∧ diffChainTo h (M ++ [la]) y := hdc
    obtain ⟨dm, hm, hpar, hrest⟩ := hdc'
    show ∃ dx : DiffRec, heapGet h2 m = some (.diff dx) ∧
      dx.parent = (M ++ [la]).headD b ∧ diffChainTo h2 (M ++ [la]) b
    refine ⟨dm, ?_, ?_, ih h h2 la b y ld hrest (fun x hx => hframe x (by simp [hx])) hla2⟩
    · rw [hframe m (by simp)]
      exact hm
    · cases hML : M ++ [la] with
      | nil => exact absurd hML (by simp)
      | cons z zs =>
        rw [hML] at hpar
        exact hpar

/-- A linked diff run ending on a disk layer realizes exactly the chain
consisting of the run followed by the disk layer. -/
theorem chainList_of_diffChainTo {h : List (Addr × LayerRec)} {nd : DiskRec} :
    ∀ (L : List Addr) (x y : Addr) (f : Nat),
      diffChainTo h (x :: L) y →
      heapGet h y = some (.disk nd) →
      L.length + 2 ≤ f →
      chainList h f x = some ((x :: L) ++ [y]) := by
  intro L
  induction L with
  | nil =>
    intro x y f hdc hy hf
    have hdc' : ∃ dx : DiffRec, heapGet h x = some (.diff dx) ∧
        dx.parent = List.headD [] y ∧ diffChainTo h [] y := hdc
    obtain ⟨dx, hx, hpar, _⟩ := hdc'
    have hpar' : dx.parent = y := hpar
    obtain ⟨f1, rfl⟩ : ∃ f1, f = f1 + 1 + 1 := ⟨f - 2, by omega⟩
    simp only [chainList, hx, hpar', hy, Option.map_some']
    rfl
  | cons z L ih =>
    intro x y f hdc hy hf
    have hdc' : ∃ dx : DiffRec, heapGet h x = some (.diff dx) ∧
        dx.parent = List.headD (z :: L) y ∧ diffChainTo h (z :: L) y := hdc
    obtain ⟨dx, hx, hpar, hrest⟩ := hdc'
    have hpar' : dx.parent = z := hpar
    obtain ⟨f1, rfl⟩ : ∃ f1, f = f1 + 1 := ⟨f - 1, by omega⟩
    have hstep := ih z y f1 hrest hy (by simp only [List.length_cons] at hf; omega)
    simp only [chainList, hx, hpar', hstep, Option.map_some']
    rfl

/-- C3 (amended): after any successful `cap root k` with `k > 0`, the
chain from the capped root down to (and including) the disk layer holds
at most `k + 1` layers.  The claim's total-count reading fails: sibling
branches survive a cap untouched (see the counterexample). -/
theorem c3_cap_chain_bound (s : St) (root : Hash) (k : Nat) (a : Addr)
    (hinv : TreeInv s) (hfz : freezerOk s)
    (ha : alistGet s.layers (convertEmpty root) = some a)
    (hk : k ≠ 0)
    (hcap : (cap s root k).2 = .ok ()) :
    ∃ C, chainList (cap s root k).1.heap (cap s root k).1.next a = some C ∧
      C.length ≤ k + 1 := by
  obtain ⟨hb, hent⟩ := hinv
  obtain ⟨l, C0, hl, hlroot, hchain0, hnd0⟩ := hent _ _ ha
  cases l with
  | disk dk =>
    exfalso
    have hce : (cap s root k).2 = .error .isDiskLayer := by
      simp only [cap, ha, hl]
    rw [hce] at hcap
    simp at hcap
  | diff d =>
    cases hdive : dive s.heap (k - 1) a d with
    | none =>
      have hcapeq : cap s root k = (s, .ok ()) := by
        simp only [cap, ha, hl]
        rw [if_neg hk]
        simp only [hdive]
      rw [hcapeq]
      refine ⟨C0, hchain0, ?_⟩
      have := dive_none_bound hdive hl hchain0
      omega
    | some p =>
      cases p with
      | mk la ld =>
        obtain ⟨M, C2, hC0eq, hMlen, hchainTo, hla, hC2⟩ := dive_spec hdive hl hchain0
        cases hp : heapGet s.heap ld.parent with
        | none =>
          exfalso
          cases hn : s.next with
          | zero => rw [hn] at hC2; simp [chainList] at hC2
          | succ n =>
            rw [hn, chainList, hp] at hC2
            cases hC2
        | some pl =>
          cases pl with
          | disk pdk =>
            have hcapeq : cap s root k = (s, .ok ()) := by
              simp only [cap, ha, hl]
              rw [if_neg hk]
              simp only [hdive, hp]
            rw [hcapeq]
            refine ⟨C0, hchain0, ?_⟩
            have hC2eq : C2 = [ld.parent] := by
              cases hn : s.next with
              | zero => rw [hn] at hC2; simp [chainList] at hC2
              | succ n =>
                rw [hn, chainList] at hC2
                have hC2' : some [ld.parent] = some C2 := by
                  rw [hp] at hC2
                  exact hC2
                injection hC2' with hC2'
                exact hC2'.symm
            rw [hC0eq, hC2eq]
            simp only [List.length_append, List.length_cons, List.length_nil]
            omega
          | diff pd =>
            obtain ⟨t2, hC2h⟩ := chainList_head hC2
            subst hC2h
            have hnd0' := hnd0
            rw [hC0eq, List.nodup_append] at hnd0'
            obtain ⟨hndL, hndC2, hdisj⟩ := hnd0'
            have hchainP : chainList s.heap (s.next + 1) ld.parent =
                some (ld.parent :: t2) := chainList_mono hC2 (Nat.le_succ s.next)
            obtain ⟨s2, b, nd, hper, hgb, hndroot, hnddid, hndstale, hlay, hble, hblt,
                hb2, hfz2, hframe, hcd, hcdk⟩ :=
              persist_spec (s.next + 1) s ld.parent t2 pd false hchainP hndC2 hp hb hfz
            have hlaC2 : la ∉ ld.parent :: t2 := fun hmem => hdisj (by simp) hmem
            have hlaLt : la < s.next := heapGet_lt_of_bounded hb hla
            have hlaF : heapGet s2.heap la = some (.diff ld) := by
              rw [hframe la hlaC2 hlaLt]
              exact hla
            have hcapeq : cap s root k =
                ({ setParent { s2 with layers := alistSet s2.layers (LayerRec.disk nd).root b } la b with
                    layers := capRemove
                      (setParent { s2 with layers := alistSet s2.layers (LayerRec.disk nd).root b } la b).heap
                      (setParent { s2 with layers := alistSet s2.layers (LayerRec.disk nd).root b } la b).layers },
                  .ok ()) := by
              simp only [cap, ha, hl]
              rw [if_neg hk]
              simp only [hdive, hp, hper, hgb]
            have hlaF2 : heapGet ({ s2 with
                layers := alistSet s2.layers (LayerRec.disk nd).root b } : St).heap la =
                some (.diff ld) := hlaF
            have hsp : setParent { s2 with layers := alistSet s2.layers (LayerRec.disk nd).root b } la b
                = setLayer { s2 with layers := alistSet s2.layers (LayerRec.disk nd).root b } la
                    (.diff { ld with parent := b }) := by
              rw [setParent]
              rw [hlaF2]
            have hFheap : (cap s root k).1.heap
                = alistSet s2.heap la (.diff { ld with parent := b }) := by
              rw [hcapeq, hsp]
              rfl
            have hFnext : (cap s root k).1.next = s2.next := by
              rw [hcapeq, hsp]
              rfl
            have hndLd := hndL
            rw [List.nodup_append] at hndLd
            obtain ⟨hndM, _, hdisjM⟩ := hndLd
            have hMframe : ∀ x ∈ M, heapGet s2.heap x = heapGet s.heap x := by
              intro x hx
              have hxC2 : x ∉ ld.parent :: t2 := fun hmem => hdisj (by simp [hx]) hmem
              obtain ⟨lx, hlx⟩ := chainList_mem_heap hchain0 x (by rw [hC0eq]; simp [hx])
              exact hframe x hxC2 (heapGet_lt_of_bounded hb hlx)
            have hdc2 : diffChainTo (alistSet s2.heap la (.diff { ld with parent := b }))
                (M ++ [la]) b := by
              refine diffChainTo_relink M s.heap _ la b ld.parent ld hchainTo ?_
                (alistGet_set_self _ _ _)
              intro x hx
              have hxla : x ≠ la := fun hh => hdisjM hx (by simp [hh])
              exact (heapGet_setLayer_ne s2 la (.diff { ld with parent := b }) x hxla).trans
                (hMframe x hx)
            have hgb2 : heapGet (alistSet s2.heap la (.diff { ld with parent := b })) b =
                some (.disk nd) := by
              have hbla : b ≠ la := by
                intro hh
                rw [hh] at hble
                exact absurd hlaLt (Nat.not_lt.mpr hble)
              exact (heapGet_setLayer_ne s2 la (.diff { ld with parent := b }) b hbla).trans hgb
            have hC0lt : ∀ x ∈ C0, x < s.next := by
              intro x hx
              obtain ⟨lx, hlx⟩ := chainList_mem_heap hchain0 x hx
              exact heapGet_lt_of_bounded hb hlx
            have hC0len : C0.length ≤ s.next := nodup_bounded_length_le C0 s.next hnd0 hC0lt
            have hklen : k + 1 ≤ s2.next := by
              rw [hC0eq] at hC0len
              simp only [List.length_append, List.length_cons, List.length_nil, hMlen] at hC0len
              have hss : s.next < s2.next := Nat.lt_of_le_of_lt hble hblt
              exact Nat.le_trans (by omega : k + 1 ≤ s.next) (Nat.le_of_lt hss)
            cases hML : M ++ [la] with
            | nil => exact absurd hML (by simp)
            | cons z zs =>
              obtain ⟨t0, hh0⟩ := chainList_head hchain0
              have hza : z = a := by
                rw [hC0eq, hML] at hh0
                have hh0' : z :: (zs ++ ld.parent :: t2) = a :: t0 := hh0
                injection hh0'
              subst hza
              have hlen1 : zs.length + 1 = k := by
                have : (M ++ [la]).length = k := by
                  simp only [List.length_append, List.length_cons, List.length_nil, hMlen]
                  omega
                rw [hML] at this
                simp only [List.length_cons] at this
                exact this
              have hdc3 : diffChainTo (alistSet s2.heap la (.diff { ld with parent := b }))
                  (z :: zs) b := by
                rw [← hML]
                exact hdc2
              have hchainF := chainList_of_diffChainTo zs z b s2.next hdc3 hgb2 (by omega)
              refine ⟨(z :: zs) ++ [b], ?_, ?_⟩
              · rw [hFheap, hFnext]
                exact hchainF
              · simp only [List.length_append, List.length_cons, List.length_nil]
                omega

/-- A tree with a disk layer (root `4`) and two sibling diff layers
(roots `7` and `8`, both children of the disk layer). -/
def c3state : St :=
  { heap := [(0, .disk ⟨4, 0, none, [], false⟩),
             (1, .diff ⟨7, 1, [], 0, false⟩),
             (2, .diff ⟨8, 1, [], 0, false⟩)],
    next := 3, layers := [(4, 0), (7, 1), (8, 2)],
    kv := ⟨[], 0⟩, freezer := none, stateFreezer := none, statelimit := 0, dirtyCap := 0 }

/-- `cap 7 1` on the sibling tree succeeds as a no-op, yet the tree keeps
all three layers: the claimed total bound `k + 1 = 2` fails. -/
theorem c3_counterexample :
    cap c3state 7 1 = (c3state, .ok ()) ∧ c3state.layers.length = 3 := ⟨rfl, rfl⟩

theorem c3_cap_chain_bound_witness :
    TreeInv c3state ∧ freezerOk c3state ∧
    alistGet c3state.layers (convertEmpty 7) = some 1 ∧ (1 : Nat) ≠ 0 ∧
    (cap c3state 7 1).2 = .ok () ∧
    (∃ C, chainList (cap c3state 7 1).1.heap (cap c3state 7 1).1.next 1 = some C ∧
      C.length ≤ 1 + 1) := by
  have hinv : TreeInv c3state := by
    refine ⟨?_, ?_⟩
    · intro p hp
      have hp' : p ∈ [((0 : Addr), LayerRec.disk ⟨4, 0, none, [], false⟩),
          ((1 : Addr), LayerRec.diff ⟨7, 1, [], 0, false⟩),
          ((2 : Addr), LayerRec.diff ⟨8, 1, [], 0, false⟩)] := hp
      simp only [List.mem_cons, List.not_mem_nil, or_false] at hp'
      rcases hp' with rfl | rfl | rfl <;> decide
    · intro r a ha
      have ha1 : alistGet c3state.layers r =
          (if (4 : Hash) = r then some (0 : Addr)
           else if (7 : Hash) = r then some 1
           else if (8 : Hash) = r then some 2 else none) := rfl
      rw [ha1] at ha
      by_cases h4 : (4 : Hash) = r
      · subst h4
        rw [if_pos rfl] at ha
        injection ha with ha
        subst ha
        exact ⟨.disk ⟨4, 0, none, [], false⟩, [0], rfl, rfl, rfl, by decide⟩
      · rw [if_neg h4] at ha
        by_cases h7 : (7 : Hash) = r
        · subst h7
          rw [if_pos rfl] at ha
          injection ha with ha
          subst ha
          exact ⟨.diff ⟨7, 1, [], 0, false⟩, [1, 0], rfl, rfl, rfl, by decide⟩
        · rw [if_neg h7] at ha
          by_cases h8 : (8 : Hash) = r
          · subst h8
            rw [if_pos rfl] at ha
            injection ha with ha
            subst ha
            exact ⟨.diff ⟨8, 1, [], 0, false⟩, [2, 0], rfl, rfl, rfl, by decide⟩
          · rw [if_neg h8] at ha
            cases ha
  have hfz : freezerOk c3state := by
    intro fz h
    have h' : (none : Option Freezer) = some fz := h
    cases h'
  exact ⟨hinv, hfz, rfl, by decide, rfl,
    c3_cap_chain_bound c3state 7 1 1 hinv hfz rfl (by decide) rfl⟩
